import Mathlib

/-!
# Verification of the time-hub poll core

A shallow embedding of the core of the `time-hub` repository
(`src/lib/poll-storage.ts`, `src/lib/poll-utils.ts`,
`src/lib/calendar-utils.ts`, `src/hooks/use-poll-data.ts`)
together with proofs of the specification's claims about it.

Conventions:
* JS strings are modelled as `List Char` (one entry per code point; the
  program never manufactures lone surrogates, and Lean's `Char` is a
  Unicode scalar value).
* Bytes are `Nat` values `< 256`.
* Platform primitives used by the source (`btoa`, `atob`, `TextEncoder`,
  `TextDecoder`, `JSON.stringify`, `JSON.parse`, `decodeURIComponent`)
  are modelled executably, faithful to their standardised behaviour on
  the fragment this program exercises; each model carries a doc comment
  stating its scope.
-/

namespace TimeHub

/-! ## JS string helpers -/

/-- Whitespace in the sense of JS `String.prototype.trim`
(the WhiteSpace and LineTerminator productions). -/
def isJsWs (c : Char) : Bool :=
  c = ' ' || c = '\t' || c = '\n' || c = '\r' ||
  c.toNat = 0x0B || c.toNat = 0x0C || c.toNat = 0xA0 || c.toNat = 0xFEFF ||
  c.toNat = 0x2028 || c.toNat = 0x2029 ||
  c.toNat = 0x1680 || (0x2000 ≤ c.toNat && c.toNat ≤ 0x200A) ||
  c.toNat = 0x202F || c.toNat = 0x205F || c.toNat = 0x3000 || c.toNat = 0x0085

/-- `s.trim() === ''` for a JS string: every code point is whitespace. -/
def trimIsEmpty (s : List Char) : Bool :=
  s.all isJsWs

/-! ## Base64 (`btoa` / `atob`)

`safeBase64Encode` feeds `btoa` a binary string whose code units are the
UTF-8 bytes of the payload; `safeBase64Decode` first tests the candidate
against `/^[A-Za-z0-9+/]*={0,2}$/` and only then calls `atob` (WHATWG
forgiving-base64). We model `btoa` on byte lists and `atob` on character
lists.  The `atob` model is faithful on whitespace-free inputs (the
regex admits no whitespace, so that is the only way the source calls it). -/

/-- The 64-character base64 alphabet, as indexed by `btoa`. -/
def b64Alphabet : List Char :=
  [ 'A','B','C','D','E','F','G','H','I','J','K','L','M','N','O','P','Q','R','S',
    'T','U','V','W','X','Y','Z','a','b','c','d','e','f','g','h','i','j','k','l',
    'm','n','o','p','q','r','s','t','u','v','w','x','y','z','0','1','2','3','4',
    '5','6','7','8','9','+','/' ]

/-- The base64 digit for a 6-bit value. -/
def b64Char (n : Nat) : Char :=
  b64Alphabet.getD n 'A'

/-- Index of a character in the base64 alphabet (`none` for non-digits,
including `'='`). -/
def b64CharIdx (c : Char) : Option Nat :=
  b64Alphabet.findIdx? (· = c)

/-- Membership in the regex character class `[A-Za-z0-9+/]`. -/
def isB64Alpha (c : Char) : Bool :=
  ('A' ≤ c && c ≤ 'Z') || ('a' ≤ c && c ≤ 'z') || ('0' ≤ c && c ≤ '9') ||
  c = '+' || c = '/'

/-- The test `encoded.match(/^[A-Za-z0-9+/]*={0,2}$/)` used by
`safeBase64Decode`: a run of base64 digits followed by zero, one or two
`'='`.  Because `'='` is not in the class, the maximal-munch split below
is equivalent to the regex. -/
def b64RegexMatch (s : List Char) : Bool :=
  let rest := s.dropWhile isB64Alpha
  rest = [] || rest = ['='] || rest = ['=', '=']

/-- `btoa` on a byte list (every entry `< 256`): groups of three bytes
become four base64 digits, with `'='` padding for a final group of one
or two bytes. -/
def b64Encode : List Nat → List Char
  | [] => []
  | [a] => [b64Char (a / 4), b64Char (a % 4 * 16), '=', '=']
  | [a, b] => [b64Char (a / 4), b64Char (a % 4 * 16 + b / 16), b64Char (b % 16 * 4), '=']
  | a :: b :: c :: rest =>
      b64Char (a / 4) :: b64Char (a % 4 * 16 + b / 16) ::
      b64Char (b % 16 * 4 + c / 64) :: b64Char (c % 64) :: b64Encode rest

/-- `atob` (WHATWG forgiving-base64) on a whitespace-free character
list: full groups of four digits yield three bytes; a terminal group may
be two or three digits, optionally completed to four with `'='` padding;
anything else (a lone trailing digit, misplaced `'='`, a character
outside the alphabet) fails. -/
def b64Decode : List Char → Option (List Nat)
  | [] => some []
  | [c1, c2] => do
      let v1 ← b64CharIdx c1
      let v2 ← b64CharIdx c2
      some [v1 * 4 + v2 / 16]
  | [c1, c2, c3] => do
      let v1 ← b64CharIdx c1
      let v2 ← b64CharIdx c2
      let v3 ← b64CharIdx c3
      some [v1 * 4 + v2 / 16, v2 % 16 * 16 + v3 / 4]
  | c1 :: c2 :: c3 :: c4 :: rest =>
      if rest = [] ∧ c3 = '=' ∧ c4 = '=' then do
        let v1 ← b64CharIdx c1
        let v2 ← b64CharIdx c2
        some [v1 * 4 + v2 / 16]
      else if rest = [] ∧ c4 = '=' then do
        let v1 ← b64CharIdx c1
        let v2 ← b64CharIdx c2
        let v3 ← b64CharIdx c3
        some [v1 * 4 + v2 / 16, v2 % 16 * 16 + v3 / 4]
      else do
        let v1 ← b64CharIdx c1
        let v2 ← b64CharIdx c2
        let v3 ← b64CharIdx c3
        let v4 ← b64CharIdx c4
        let tail ← b64Decode rest
        some ((v1 * 4 + v2 / 16) :: (v2 % 16 * 16 + v3 / 4) :: (v3 % 4 * 64 + v4) :: tail)
  | [_] => none

/-! ### Base64 facts -/

theorem b64CharIdx_b64Char {n : Nat} (h : n < 64) :
    b64CharIdx (b64Char n) = some n := by
  interval_cases n <;> decide

theorem b64Char_ne_eq {n : Nat} (h : n < 64) : ¬ b64Char n = '=' := by
  interval_cases n <;> decide

theorem isB64Alpha_b64Char {n : Nat} (h : n < 64) : isB64Alpha (b64Char n) = true := by
  interval_cases n <;> decide

/-- `atob` inverts `btoa` on byte lists. -/
theorem b64Decode_b64Encode (bs : List Nat) (h : ∀ b ∈ bs, b < 256) :
    b64Decode (b64Encode bs) = some bs := by
  induction bs using b64Encode.induct with
  | case1 => rfl
  | case2 a =>
      have ha : a < 256 := h a (by simp)
      have h1 : a / 4 < 64 := by omega
      have h2 : a % 4 * 16 < 64 := by omega
      simp only [b64Encode, b64Decode]
      rw [if_pos (by simp)]
      simp only [b64CharIdx_b64Char h1, b64CharIdx_b64Char h2, Option.bind_eq_bind,
        Option.some_bind, Option.some.injEq, List.cons.injEq, and_true]
      omega
  | case3 a b =>
      have ha : a < 256 := h a (by simp)
      have hb : b < 256 := h b (by simp)
      have h1 : a / 4 < 64 := by omega
      have h2 : a % 4 * 16 + b / 16 < 64 := by omega
      have h3 : b % 16 * 4 < 64 := by omega
      simp only [b64Encode, b64Decode]
      rw [if_neg (by simp [b64Char_ne_eq h3]), if_pos (by simp)]
      simp only [b64CharIdx_b64Char h1, b64CharIdx_b64Char h2, b64CharIdx_b64Char h3,
        Option.bind_eq_bind, Option.some_bind, Option.some.injEq, List.cons.injEq, and_true]
      constructor <;> omega
  | case4 a b c rest ih =>
      have ha : a < 256 := h a (by simp)
      have hb : b < 256 := h b (by simp)
      have hc : c < 256 := h c (by simp)
      have h1 : a / 4 < 64 := by omega
      have h2 : a % 4 * 16 + b / 16 < 64 := by omega
      have h3 : b % 16 * 4 + c / 64 < 64 := by omega
      have h4 : c % 64 < 64 := by omega
      have hrest : ∀ x ∈ rest, x < 256 := fun x hx => h x (by simp [hx])
      simp only [b64Encode, b64Decode]
      rw [if_neg (by simp [b64Char_ne_eq h3]), if_neg (by simp [b64Char_ne_eq h4])]
      simp only [b64CharIdx_b64Char h1, b64CharIdx_b64Char h2, b64CharIdx_b64Char h3,
        b64CharIdx_b64Char h4, ih hrest, Option.bind_eq_bind, Option.some_bind,
        Option.some.injEq, List.cons.injEq, and_true]
      omega

/-- The characters `btoa` emits pass the base64 regex test. -/
theorem b64RegexMatch_b64Encode (bs : List Nat) (h : ∀ b ∈ bs, b < 256) :
    b64RegexMatch (b64Encode bs) = true := by
  induction bs using b64Encode.induct with
  | case1 => rfl
  | case2 a =>
      have ha : a < 256 := h a (by simp)
      have h1 : a / 4 < 64 := by omega
      have h2 : a % 4 * 16 < 64 := by omega
      simp only [b64Encode, b64RegexMatch, List.dropWhile, isB64Alpha_b64Char h1,
        isB64Alpha_b64Char h2]
      decide
  | case3 a b =>
      have ha : a < 256 := h a (by simp)
      have hb : b < 256 := h b (by simp)
      have h1 : a / 4 < 64 := by omega
      have h2 : a % 4 * 16 + b / 16 < 64 := by omega
      have h3 : b % 16 * 4 < 64 := by omega
      simp only [b64Encode, b64RegexMatch, List.dropWhile, isB64Alpha_b64Char h1,
        isB64Alpha_b64Char h2, isB64Alpha_b64Char h3]
      decide
  | case4 a b c rest ih =>
      have ha : a < 256 := h a (by simp)
      have hb : b < 256 := h b (by simp)
      have hc : c < 256 := h c (by simp)
      have h1 : a / 4 < 64 := by omega
      have h2 : a % 4 * 16 + b / 16 < 64 := by omega
      have h3 : b % 16 * 4 + c / 64 < 64 := by omega
      have h4 : c % 64 < 64 := by omega
      have hrest : ∀ x ∈ rest, x < 256 := fun x hx => h x (by simp [hx])
      have hrec := ih hrest
      simp only [b64RegexMatch, b64Encode, List.dropWhile, isB64Alpha_b64Char h1,
        isB64Alpha_b64Char h2, isB64Alpha_b64Char h3, isB64Alpha_b64Char h4] at hrec ⊢
      exact hrec

/-- `btoa` output is never whitespace-only (unless empty): every
character is a base64 digit or `'='`. -/
theorem not_trimIsEmpty_b64Encode (bs : List Nat) (hne : bs ≠ [])
    (h : ∀ b ∈ bs, b < 256) : trimIsEmpty (b64Encode bs) = false := by
  have notWs : ∀ n < 64, isJsWs (b64Char n) = false := by decide
  match bs, hne with
  | [a], _ =>
      have ha : a < 256 := h a (by simp)
      simp [b64Encode, trimIsEmpty, notWs (a / 4) (by omega)]
  | [a, b], _ =>
      have ha : a < 256 := h a (by simp)
      simp [b64Encode, trimIsEmpty, notWs (a / 4) (by omega)]
  | a :: b :: c :: rest, _ =>
      have ha : a < 256 := h a (by simp)
      simp [b64Encode, trimIsEmpty, notWs (a / 4) (by omega)]

/-! ## UTF-8 (`TextEncoder` / `TextDecoder`)

`safeBase64Encode` converts the JSON text to bytes with `new
TextEncoder().encode(...)`; `safeBase64Decode` converts bytes back with
`new TextDecoder('utf-8')` (non-fatal mode: invalid sequences become
U+FFFD, never an exception).  `decodeURIComponent` instead rejects
invalid percent-encoded UTF-8, which the strict decoder below models. -/

/-- UTF-8 encoding of one Unicode scalar value (`TextEncoder`). -/
def utf8EncodeChar (c : Char) : List Nat :=
  if c.toNat < 0x80 then [c.toNat]
  else if c.toNat < 0x800 then [0xC0 + c.toNat / 64, 0x80 + c.toNat % 64]
  else if c.toNat < 0x10000 then
    [0xE0 + c.toNat / 4096, 0x80 + c.toNat / 64 % 64, 0x80 + c.toNat % 64]
  else
    [0xF0 + c.toNat / 262144, 0x80 + c.toNat / 4096 % 64,
     0x80 + c.toNat / 64 % 64, 0x80 + c.toNat % 64]

/-- UTF-8 encoding of a string (`TextEncoder().encode`). -/
def utf8Encode : List Char → List Nat
  | [] => []
  | c :: cs => utf8EncodeChar c ++ utf8Encode cs

/-- One step of the WHATWG UTF-8 decoder: from a byte list, either one
scalar value or a failure marker, together with the unconsumed suffix
(on failure the maximal subpart of the ill-formed sequence is
consumed). -/
def utf8Step : List Nat → Option Nat × List Nat
  | [] => (none, [])
  | b :: bs =>
    if b < 0x80 then (some b, bs)
    else if 0xC2 ≤ b ∧ b ≤ 0xDF then
      match bs with
      | [] => (none, [])
      | b2 :: bs2 =>
        if 0x80 ≤ b2 ∧ b2 ≤ 0xBF then (some ((b - 0xC0) * 64 + (b2 - 0x80)), bs2)
        else (none, bs)
    else if 0xE0 ≤ b ∧ b ≤ 0xEF then
      match bs with
      | [] => (none, [])
      | b2 :: bs2 =>
        if 0x80 ≤ b2 ∧ b2 ≤ 0xBF ∧ 0x800 ≤ (b - 0xE0) * 4096 + (b2 - 0x80) * 64 ∧
            ¬ (0xD800 ≤ (b - 0xE0) * 4096 + (b2 - 0x80) * 64 ∧
               (b - 0xE0) * 4096 + (b2 - 0x80) * 64 < 0xE000) then
          match bs2 with
          | [] => (none, [])
          | b3 :: bs3 =>
            if 0x80 ≤ b3 ∧ b3 ≤ 0xBF then
              (some ((b - 0xE0) * 4096 + (b2 - 0x80) * 64 + (b3 - 0x80)), bs3)
            else (none, bs2)
        else (none, bs)
    else if 0xF0 ≤ b ∧ b ≤ 0xF4 then
      match bs with
      | [] => (none, [])
      | b2 :: bs2 =>
        if 0x80 ≤ b2 ∧ b2 ≤ 0xBF ∧ 0x10000 ≤ (b - 0xF0) * 262144 + (b2 - 0x80) * 4096 ∧
            (b - 0xF0) * 262144 + (b2 - 0x80) * 4096 < 0x110000 then
          match bs2 with
          | [] => (none, [])
          | b3 :: bs3 =>
            if 0x80 ≤ b3 ∧ b3 ≤ 0xBF then
              match bs3 with
              | [] => (none, [])
              | b4 :: bs4 =>
                if 0x80 ≤ b4 ∧ b4 ≤ 0xBF then
                  (some ((b - 0xF0) * 262144 + (b2 - 0x80) * 4096 +
                         (b3 - 0x80) * 64 + (b4 - 0x80)), bs4)
                else (none, bs3)
            else (none, bs2)
        else (none, bs)
    else (none, bs)

/-- Fuelled loop of the replacing (non-fatal `TextDecoder`) UTF-8
decoder; each step consumes at least one byte, so fuel equal to the byte
count suffices. -/
def utf8DecodeReplaceAux : Nat → List Nat → List Char
  | _, [] => []
  | 0, _ :: _ => []
  | fuel + 1, b :: bs =>
    match utf8Step (b :: bs) with
    | (some v, rest) => Char.ofNat v :: utf8DecodeReplaceAux fuel rest
    | (none, rest) => Char.ofNat 0xFFFD :: utf8DecodeReplaceAux fuel rest

/-- `new TextDecoder('utf-8').decode(bytes)`: never fails, invalid
sequences become U+FFFD. -/
def textDecodeUtf8 (bytes : List Nat) : List Char :=
  utf8DecodeReplaceAux bytes.length bytes

/-- Fuelled loop of the strict UTF-8 decoder (used by the
`decodeURIComponent` model, which throws on invalid sequences). -/
def utf8DecodeStrictAux : Nat → List Nat → Option (List Char)
  | _, [] => some []
  | 0, _ :: _ => none
  | fuel + 1, b :: bs =>
    match utf8Step (b :: bs) with
    | (some v, rest) => (utf8DecodeStrictAux fuel rest).map (Char.ofNat v :: ·)
    | (none, _) => none

/-- Strict UTF-8 decoding of a byte list: `none` on any ill-formed
sequence. -/
def utf8DecodeStrict (bytes : List Nat) : Option (List Char) :=
  utf8DecodeStrictAux bytes.length bytes

/-! ### UTF-8 facts -/

theorem utf8EncodeChar_ne_nil (c : Char) : utf8EncodeChar c ≠ [] := by
  unfold utf8EncodeChar
  split_ifs <;> simp

theorem utf8EncodeChar_lt_256 (c : Char) : ∀ b ∈ utf8EncodeChar c, b < 256 := by
  have hv : c.toNat < 0xD800 ∨ (0xDFFF < c.toNat ∧ c.toNat < 0x110000) := c.valid
  unfold utf8EncodeChar
  split_ifs with h1 h2 h3 <;> intro b hb <;> simp at hb <;> omega

theorem utf8Encode_lt_256 (cs : List Char) : ∀ b ∈ utf8Encode cs, b < 256 := by
  induction cs with
  | nil => simp [utf8Encode]
  | cons c cs ih =>
      intro b hb
      simp only [utf8Encode, List.mem_append] at hb
      rcases hb with hb | hb
      · exact utf8EncodeChar_lt_256 c b hb
      · exact ih b hb

/-- The decoder step inverts the encoder on any single scalar value. -/
theorem utf8Step_utf8EncodeChar (c : Char) (rest : List Nat) :
    utf8Step (utf8EncodeChar c ++ rest) = (some c.toNat, rest) := by
  have hv : c.toNat < 0xD800 ∨ (0xDFFF < c.toNat ∧ c.toNat < 0x110000) := c.valid
  by_cases h1 : c.toNat < 0x80
  · rw [show utf8EncodeChar c = [c.toNat] from by rw [utf8EncodeChar, if_pos h1]]
    rw [List.cons_append, List.nil_append, utf8Step.eq_def]
    simp only []
    rw [if_pos h1]
  by_cases h2 : c.toNat < 0x800
  · rw [show utf8EncodeChar c = [0xC0 + c.toNat / 64, 0x80 + c.toNat % 64] from by
      rw [utf8EncodeChar, if_neg h1, if_pos h2]]
    rw [List.cons_append, List.cons_append, List.nil_append, utf8Step.eq_def]
    simp only []
    rw [if_neg (by omega), if_pos (by omega)]
    rw [if_pos (by omega)]
    simp only [Prod.mk.injEq, Option.some.injEq, and_true]
    omega
  by_cases h3 : c.toNat < 0x10000
  · rw [show utf8EncodeChar c =
        [0xE0 + c.toNat / 4096, 0x80 + c.toNat / 64 % 64, 0x80 + c.toNat % 64] from by
      rw [utf8EncodeChar, if_neg h1, if_neg h2, if_pos h3]]
    rw [List.cons_append, List.cons_append, List.cons_append, List.nil_append,
      utf8Step.eq_def]
    simp only []
    rw [if_neg (by omega), if_neg (by omega), if_pos (by omega)]
    rw [if_pos (by refine ⟨by omega, by omega, by omega, by omega⟩)]
    rw [if_pos (by omega)]
    simp only [Prod.mk.injEq, Option.some.injEq, and_true]
    omega
  · rw [show utf8EncodeChar c =
        [0xF0 + c.toNat / 262144, 0x80 + c.toNat / 4096 % 64,
         0x80 + c.toNat / 64 % 64, 0x80 + c.toNat % 64] from by
      rw [utf8EncodeChar, if_neg h1, if_neg h2, if_neg h3]]
    rw [List.cons_append, List.cons_append, List.cons_append, List.cons_append,
      List.nil_append, utf8Step.eq_def]
    simp only []
    rw [if_neg (by omega), if_neg (by omega), if_neg (by omega), if_pos (by omega)]
    rw [if_pos (by refine ⟨by omega, by omega, by omega, by omega⟩)]
    rw [if_pos (by omega)]
    rw [if_pos (by omega)]
    simp only [Prod.mk.injEq, Option.some.injEq, and_true]
    omega

theorem utf8EncodeChar_length_pos (c : Char) : 1 ≤ (utf8EncodeChar c).length := by
  unfold utf8EncodeChar
  split_ifs <;> simp

theorem length_le_utf8Encode_length (cs : List Char) :
    cs.length ≤ (utf8Encode cs).length := by
  induction cs with
  | nil => simp [utf8Encode]
  | cons c cs ih =>
      have := utf8EncodeChar_length_pos c
      simp only [utf8Encode, List.length_append, List.length_cons]
      omega

/-- The replacing decoder inverts the encoder on valid strings, for any
sufficient fuel. -/
theorem utf8DecodeReplaceAux_utf8Encode (cs : List Char) :
    ∀ fuel, cs.length ≤ fuel → utf8DecodeReplaceAux fuel (utf8Encode cs) = cs := by
  induction cs with
  | nil => intro fuel _; cases fuel <;> rfl
  | cons c cs ih =>
      intro fuel hfuel
      match fuel with
      | fuel + 1 =>
        have hne : utf8Encode (c :: cs) ≠ [] := by
          have := utf8EncodeChar_ne_nil c
          simp only [utf8Encode]
          exact fun h => this (List.append_eq_nil.mp h).1
        have hstep : utf8Step (utf8Encode (c :: cs)) = (some c.toNat, utf8Encode cs) := by
          simpa only [utf8Encode] using utf8Step_utf8EncodeChar c (utf8Encode cs)
        match hE : utf8Encode (c :: cs), hne with
        | b :: bs, _ =>
          rw [hE] at hstep
          rw [utf8DecodeReplaceAux, hstep]
          simp only []
          rw [ih fuel (by simpa using hfuel), Char.ofNat_toNat]

/-- `TextDecoder` inverts `TextEncoder`. -/
theorem textDecodeUtf8_utf8Encode (cs : List Char) :
    textDecodeUtf8 (utf8Encode cs) = cs :=
  utf8DecodeReplaceAux_utf8Encode cs _ (length_le_utf8Encode_length cs)

/-! ## JSON (`JSON.stringify` / `JSON.parse`)

The poll record contains only strings, arrays and objects, so
`JSON.stringify` applied to it emits exactly the fragment below.  The
parser models `JSON.parse` over full JSON syntax; number tokens are kept
as raw text (the program never interprets a parsed number), and
`\uXXXX` escapes are read as scalar values (the program never emits or
round-trips lone surrogates). -/

mutual
inductive Json where
  | null : Json
  | bool (b : Bool) : Json
  | num (raw : List Char) : Json
  | str (s : List Char) : Json
  | arr (items : JsonArr) : Json
  | obj (members : JsonObj) : Json
inductive JsonArr where
  | nil : JsonArr
  | cons (hd : Json) (tl : JsonArr) : JsonArr
inductive JsonObj where
  | nil : JsonObj
  | cons (key : List Char) (val : Json) (tl : JsonObj) : JsonObj
end

/-- Lower-case hexadecimal digit, as emitted by `JSON.stringify` in
`\u00xx` escapes. -/
def hexDigit (n : Nat) : Char :=
  if n < 10 then Char.ofNat (48 + n) else Char.ofNat (87 + n)

/-- How `JSON.stringify` renders one character inside a string literal:
quote and backslash are escaped, control characters get their short
escape or a `\u00xx` escape, everything else is copied verbatim. -/
def escChar (c : Char) : List Char :=
  if c = '"' then ['\\', '"']
  else if c = '\\' then ['\\', '\\']
  else if c = '\x08' then ['\\', 'b']
  else if c = '\t' then ['\\', 't']
  else if c = '\n' then ['\\', 'n']
  else if c = '\x0c' then ['\\', 'f']
  else if c = '\r' then ['\\', 'r']
  else if c.toNat < 32 then
    ['\\', 'u', '0', '0', hexDigit (c.toNat / 16), hexDigit (c.toNat % 16)]
  else [c]

def escape : List Char → List Char
  | [] => []
  | c :: cs => escChar c ++ escape cs

mutual
/-- `JSON.stringify` (no indentation, as called by the source). -/
def stringifyV : Json → List Char
  | .null => "null".data
  | .bool true => "true".data
  | .bool false => "false".data
  | .num raw => raw
  | .str s => '"' :: (escape s ++ ['"'])
  | .arr .nil => ['[', ']']
  | .arr (.cons h t) => '[' :: (stringifyV h ++ stringifyArrTail t ++ [']'])
  | .obj .nil => ['\x7b', '\x7d']
  | .obj (.cons k v t) =>
      '\x7b' :: ('"' :: (escape k ++ ['"', ':'] ++ stringifyV v ++ stringifyObjTail t ++ ['\x7d']))
def stringifyArrTail : JsonArr → List Char
  | .nil => []
  | .cons h t => ',' :: (stringifyV h ++ stringifyArrTail t)
def stringifyObjTail : JsonObj → List Char
  | .nil => []
  | .cons k v t => ',' :: ('"' :: (escape k ++ ['"', ':'] ++ stringifyV v ++ stringifyObjTail t))
end

/-- JSON insignificant whitespace. -/
def isJsonWs (c : Char) : Bool :=
  c = ' ' || c = '\t' || c = '\n' || c = '\r'

def skipWs : List Char → List Char
  | [] => []
  | c :: cs => if isJsonWs c then skipWs cs else c :: cs

def hexDigVal (c : Char) : Option Nat :=
  if '0' ≤ c ∧ c ≤ '9' then some (c.toNat - 48)
  else if 'a' ≤ c ∧ c ≤ 'f' then some (c.toNat - 87)
  else if 'A' ≤ c ∧ c ≤ 'F' then some (c.toNat - 55)
  else none

/-- Single-character string escapes accepted by JSON. -/
def escCode (c : Char) : Option Char :=
  if c = '"' then some '"'
  else if c = '\\' then some '\\'
  else if c = '/' then some '/'
  else if c = 'b' then some '\x08'
  else if c = 'f' then some '\x0c'
  else if c = 'n' then some '\n'
  else if c = 'r' then some '\r'
  else if c = 't' then some '\t'
  else none

/-- Body of a JSON string literal, after the opening quote: the decoded
characters and the text following the closing quote. -/
def parseStrBody : List Char → Option (List Char × List Char)
  | [] => none
  | c :: rest =>
    if c = '"' then some ([], rest)
    else if c = '\\' then
      match rest with
      | [] => none
      | e :: rest2 =>
        if e = 'u' then
          match rest2 with
          | a :: b :: c2 :: d :: rest3 => do
              let va ← hexDigVal a
              let vb ← hexDigVal b
              let vc ← hexDigVal c2
              let vd ← hexDigVal d
              let p ← parseStrBody rest3
              some (Char.ofNat (va * 4096 + vb * 256 + vc * 16 + vd) :: p.1, p.2)
          | _ => none
        else do
          let ec ← escCode e
          let p ← parseStrBody rest2
          some (ec :: p.1, p.2)
    else if c.toNat < 32 then none
    else do
      let p ← parseStrBody rest
      some (c :: p.1, p.2)

def spanDigits (cs : List Char) : List Char × List Char :=
  (cs.takeWhile (fun c => c.isDigit), cs.dropWhile (fun c => c.isDigit))

def parseIntDigits : List Char → Option (List Char × List Char)
  | [] => none
  | c :: rest =>
    if c = '0' then some (['0'], rest)
    else if c.isDigit then
      let p := spanDigits rest
      some (c :: p.1, p.2)
    else none

def parseFracPart : List Char → Option (List Char × List Char)
  | [] => some ([], [])
  | c :: rest =>
    if c = '.' then
      match rest with
      | [] => none
      | d :: rest2 =>
        if d.isDigit then
          let p := spanDigits rest2
          some ('.' :: d :: p.1, p.2)
        else none
    else some ([], c :: rest)

def parseExpPart : List Char → Option (List Char × List Char)
  | [] => some ([], [])
  | c :: rest =>
    if c = 'e' ∨ c = 'E' then
      match rest with
      | [] => none
      | s :: rest2 =>
        if s = '+' ∨ s = '-' then
          match rest2 with
          | [] => none
          | d :: rest3 =>
            if d.isDigit then
              let p := spanDigits rest3
              some (c :: s :: d :: p.1, p.2)
            else none
        else if s.isDigit then
          let p := spanDigits rest2
          some (c :: s :: p.1, p.2)
        else none
    else some ([], c :: rest)

/-- A JSON number token, kept as raw text. -/
def parseNumTok : List Char → Option (List Char × List Char)
  | [] => none
  | c :: rest =>
    if c = '-' then do
      let pi ← parseIntDigits rest
      let pf ← parseFracPart pi.2
      let pe ← parseExpPart pf.2
      some ('-' :: (pi.1 ++ pf.1 ++ pe.1), pe.2)
    else do
      let pi ← parseIntDigits (c :: rest)
      let pf ← parseFracPart pi.2
      let pe ← parseExpPart pf.2
      some (pi.1 ++ pf.1 ++ pe.1, pe.2)

mutual
/-- Fuelled JSON value parser (`JSON.parse`); each recursion level
consumes at least one character, so the fuel passed by `jsonParse`
never runs out. -/
def parseVal : Nat → List Char → Option (Json × List Char)
  | 0, _ => none
  | fuel + 1, cs =>
    match skipWs cs with
    | [] => none
    | c :: rest =>
      if c = '"' then (parseStrBody rest).map (fun p => (.str p.1, p.2))
      else if c = '[' then
        match skipWs rest with
        | [] => none
        | c2 :: r2 =>
          if c2 = ']' then some (.arr .nil, r2)
          else (parseArrItems fuel rest).map (fun p => (.arr p.1, p.2))
      else if c = '\x7b' then
        match skipWs rest with
        | [] => none
        | c2 :: r2 =>
          if c2 = '\x7d' then some (.obj .nil, r2)
          else (parseObjItems fuel rest).map (fun p => (.obj p.1, p.2))
      else if c = 'n' then
        match rest with
        | k1 :: k2 :: k3 :: r2 =>
          if k1 = 'u' ∧ k2 = 'l' ∧ k3 = 'l' then some (.null, r2) else none
        | _ => none
      else if c = 't' then
        match rest with
        | k1 :: k2 :: k3 :: r2 =>
          if k1 = 'r' ∧ k2 = 'u' ∧ k3 = 'e' then some (.bool true, r2) else none
        | _ => none
      else if c = 'f' then
        match rest with
        | k1 :: k2 :: k3 :: k4 :: r2 =>
          if k1 = 'a' ∧ k2 = 'l' ∧ k3 = 's' ∧ k4 = 'e' then some (.bool false, r2) else none
        | _ => none
      else (parseNumTok (c :: rest)).map (fun p => (.num p.1, p.2))
def parseArrItems : Nat → List Char → Option (JsonArr × List Char)
  | 0, _ => none
  | fuel + 1, cs => do
    let pv ← parseVal fuel cs
    match skipWs pv.2 with
    | [] => none
    | c :: r2 =>
      if c = ',' then do
        let pt ← parseArrItems fuel r2
        some (.cons pv.1 pt.1, pt.2)
      else if c = ']' then some (.cons pv.1 .nil, r2)
      else none
def parseObjItems : Nat → List Char → Option (JsonObj × List Char)
  | 0, _ => none
  | fuel + 1, cs =>
    match skipWs cs with
    | [] => none
    | c :: rest =>
      if c = '"' then do
        let pk ← parseStrBody rest
        match skipWs pk.2 with
        | [] => none
        | c2 :: r2 =>
          if c2 = ':' then do
            let pv ← parseVal fuel r2
            match skipWs pv.2 with
            | [] => none
            | c3 :: r3 =>
              if c3 = ',' then do
                let pt ← parseObjItems fuel r3
                some (.cons pk.1 pv.1 pt.1, pt.2)
              else if c3 = '\x7d' then some (.cons pk.1 pv.1 .nil, r3)
              else none
          else none
      else none
end

/-- `JSON.parse`: parse one value and require only trailing whitespace
after it. -/
def jsonParse (cs : List Char) : Option Json :=
  match parseVal (2 * cs.length + 2) cs with
  | some (v, rest) => if skipWs rest = [] then some v else none
  | none => none

/-! ### String literal roundtrip -/

theorem hexDigVal_hexDigit {n : Nat} (h : n < 16) : hexDigVal (hexDigit n) = some n := by
  interval_cases n <;> decide

theorem skipWs_cons {c : Char} (h : isJsonWs c = false) (l : List Char) :
    skipWs (c :: l) = c :: l := by
  simp [skipWs, h]

theorem psb_close (l : List Char) : parseStrBody ('"' :: l) = some ([], l) := by
  rw [parseStrBody.eq_def]
  simp only []
  rw [if_pos trivial]

theorem psb_esc {e ec : Char} (he : escCode e = some ec) (hne : ¬ e = 'u') (l : List Char) :
    parseStrBody ('\\' :: e :: l) =
      Option.bind (parseStrBody l) (fun p => some (ec :: p.1, p.2)) := by
  rw [parseStrBody.eq_def]
  simp only []
  rw [if_pos trivial, if_neg hne]
  simp only [he, Option.bind_eq_bind, Option.some_bind]
  rw [if_neg (by decide)]

theorem psb_u {a b : Char} {va vb : Nat} (ha : hexDigVal a = some va)
    (hb : hexDigVal b = some vb) (l : List Char) :
    parseStrBody ('\\' :: 'u' :: '0' :: '0' :: a :: b :: l) =
      Option.bind (parseStrBody l)
        (fun p => some (Char.ofNat (0 * 4096 + 0 * 256 + va * 16 + vb) :: p.1, p.2)) := by
  rw [parseStrBody.eq_def]
  simp only []
  rw [if_pos trivial, if_pos trivial]
  simp only [show hexDigVal '0' = some 0 from rfl, ha, hb, Option.bind_eq_bind,
    Option.some_bind]
  rw [if_neg (by decide)]

theorem psb_norm {c : Char} (h1 : ¬ c = '"') (h2 : ¬ c = '\\') (h3 : ¬ c.toNat < 32)
    (l : List Char) :
    parseStrBody (c :: l) =
      Option.bind (parseStrBody l) (fun p => some (c :: p.1, p.2)) := by
  rw [parseStrBody.eq_def]
  simp only []
  rw [if_neg h1, if_neg h2, if_neg h3]
  rfl

/-- The string-body parser inverts `JSON.stringify`'s escaping. -/
theorem parseStrBody_escape (s rest : List Char) :
    parseStrBody (escape s ++ '"' :: rest) = some (s, rest) := by
  induction s with
  | nil => simpa using psb_close rest
  | cons c s ih =>
      simp only [escape, List.append_assoc]
      by_cases h1 : c = '"'
      · subst h1
        rw [show escChar '"' = ['\\', '"'] from rfl]
        simp only [List.cons_append, List.nil_append]
        rw [psb_esc (show escCode '"' = some '"' from rfl) (by decide), ih]
        rfl
      by_cases h2 : c = '\\'
      · subst h2
        rw [show escChar '\\' = ['\\', '\\'] from rfl]
        simp only [List.cons_append, List.nil_append]
        rw [psb_esc (show escCode '\\' = some '\\' from rfl) (by decide), ih]
        rfl
      by_cases h3 : c = '\x08'
      · subst h3
        rw [show escChar '\x08' = ['\\', 'b'] from rfl]
        simp only [List.cons_append, List.nil_append]
        rw [psb_esc (show escCode 'b' = some '\x08' from rfl) (by decide), ih]
        rfl
      by_cases h4 : c = '\t'
      · subst h4
        rw [show escChar '\t' = ['\\', 't'] from rfl]
        simp only [List.cons_append, List.nil_append]
        rw [psb_esc (show escCode 't' = some '\t' from rfl) (by decide), ih]
        rfl
      by_cases h5 : c = '\n'
      · subst h5
        rw [show escChar '\n' = ['\\', 'n'] from rfl]
        simp only [List.cons_append, List.nil_append]
        rw [psb_esc (show escCode 'n' = some '\n' from rfl) (by decide), ih]
        rfl
      by_cases h6 : c = '\x0c'
      · subst h6
        rw [show escChar '\x0c' = ['\\', 'f'] from rfl]
        simp only [List.cons_append, List.nil_append]
        rw [psb_esc (show escCode 'f' = some '\x0c' from rfl) (by decide), ih]
        rfl
      by_cases h7 : c = '\r'
      · subst h7
        rw [show escChar '\r' = ['\\', 'r'] from rfl]
        simp only [List.cons_append, List.nil_append]
        rw [psb_esc (show escCode 'r' = some '\r' from rfl) (by decide), ih]
        rfl
      by_cases h8 : c.toNat < 32
      · rw [show escChar c =
            ['\\', 'u', '0', '0', hexDigit (c.toNat / 16), hexDigit (c.toNat % 16)] from by
          rw [escChar, if_neg h1, if_neg h2, if_neg h3, if_neg h4, if_neg h5, if_neg h6,
            if_neg h7, if_pos h8]]
        simp only [List.cons_append, List.nil_append]
        rw [psb_u (hexDigVal_hexDigit (by omega)) (hexDigVal_hexDigit (by omega)), ih]
        have hval : 0 * 4096 + 0 * 256 + c.toNat / 16 * 16 + c.toNat % 16 = c.toNat := by
          omega
        rw [Option.some_bind, hval, Char.ofNat_toNat]
      · rw [show escChar c = [c] from by
          rw [escChar, if_neg h1, if_neg h2, if_neg h3, if_neg h4, if_neg h5, if_neg h6,
            if_neg h7, if_neg h8]]
        simp only [List.cons_append, List.nil_append]
        rw [psb_norm h1 h2 h8, ih]
        rfl

/-! ### Value roundtrip

`JSON.stringify` applied to a poll record only produces strings, arrays
and objects; `SJson` captures that fragment (with no-duplicate keys not
needed for the roundtrip). -/

mutual
inductive SJson : Json → Prop where
  | str (s : List Char) : SJson (.str s)
  | arr {items : JsonArr} : SArr items → SJson (.arr items)
  | obj {members : JsonObj} : SObj members → SJson (.obj members)
inductive SArr : JsonArr → Prop where
  | nil : SArr .nil
  | cons {h : Json} {t : JsonArr} : SJson h → SArr t → SArr (.cons h t)
inductive SObj : JsonObj → Prop where
  | nil : SObj .nil
  | cons (k : List Char) {v : Json} {t : JsonObj} : SJson v → SObj t → SObj (.cons k v t)
end

mutual
/-- Fuel requirement of `parseVal` on a serialized tree. -/
def jsize : Json → Nat
  | .null => 1
  | .bool _ => 1
  | .num _ => 1
  | .str _ => 1
  | .arr items => 1 + asize items
  | .obj members => 1 + osize members
def asize : JsonArr → Nat
  | .nil => 1
  | .cons h t => 1 + jsize h + asize t
def osize : JsonObj → Nat
  | .nil => 1
  | .cons _ v t => 1 + jsize v + osize t
end

/-- Serialized values in the fragment start with `"`, `[` or the open
brace, never whitespace or a structural delimiter. -/
theorem stringify_head {j : Json} (hj : SJson j) (X : List Char) :
    ∃ c l, stringifyV j ++ X = c :: l ∧ isJsonWs c = false ∧
      ¬ c = ']' ∧ ¬ c = '\x7d' ∧ ¬ c = ',' := by
  cases hj with
  | str s =>
      exact ⟨'"', (escape s ++ ['"']) ++ X, by simp [stringifyV], by decide, by decide,
        by decide, by decide⟩
  | arr ha =>
      cases ha with
      | nil => exact ⟨'[', ']' :: X, by simp [stringifyV], by decide, by decide,
          by decide, by decide⟩
      | cons hh ht =>
          rename_i h t
          exact ⟨'[', stringifyV h ++ (stringifyArrTail t ++ ']' :: X),
            by simp [stringifyV], by decide, by decide, by decide, by decide⟩
  | obj ho =>
      cases ho with
      | nil => exact ⟨'\x7b', '\x7d' :: X, by simp [stringifyV], by decide, by decide,
          by decide, by decide⟩
      | cons k hv ht =>
          rename_i v t
          exact ⟨'\x7b',
            '"' :: (escape k ++ '"' :: ':' :: (stringifyV v ++ (stringifyObjTail t ++ '\x7d' :: X))),
            by simp [stringifyV], by decide, by decide, by decide, by decide⟩

mutual
theorem jsize_le {j : Json} (hj : SJson j) : jsize j ≤ 2 * (stringifyV j).length := by
  cases hj with
  | str s => simp [jsize, stringifyV]; omega
  | arr ha =>
      cases ha with
      | nil => simp [jsize, asize, stringifyV]
      | cons hh ht =>
          have h1 := jsize_le hh
          have h2 := asize_le ht
          simp only [jsize, asize, stringifyV, List.length_cons, List.length_append,
            List.length_singleton] at h1 h2 ⊢
          omega
  | obj ho =>
      cases ho with
      | nil => simp [jsize, osize, stringifyV]
      | cons k hv ht =>
          have h1 := jsize_le hv
          have h2 := osize_le ht
          simp only [jsize, osize, stringifyV, List.length_cons, List.length_append,
            List.length_singleton] at h1 h2 ⊢
          omega
theorem asize_le {t : JsonArr} (ht : SArr t) :
    asize t ≤ 2 * (stringifyArrTail t).length + 2 := by
  cases ht with
  | nil => simp [asize, stringifyArrTail]
  | cons hh ht2 =>
      have h1 := jsize_le hh
      have h2 := asize_le ht2
      simp only [asize, stringifyArrTail, List.length_cons, List.length_append] at h1 h2 ⊢
      omega
theorem osize_le {t : JsonObj} (ht : SObj t) :
    osize t ≤ 2 * (stringifyObjTail t).length + 2 := by
  cases ht with
  | nil => simp [osize, stringifyObjTail]
  | cons k hv ht2 =>
      have h1 := jsize_le hv
      have h2 := osize_le ht2
      simp only [osize, stringifyObjTail, List.length_cons, List.length_append] at h1 h2 ⊢
      omega
end

theorem jsize_pos (j : Json) : 1 ≤ jsize j := by
  cases j <;> simp [jsize]

theorem asize_pos (t : JsonArr) : 1 ≤ asize t := by
  cases t with
  | nil => simp [asize]
  | cons h t => simp only [asize]; omega

theorem osize_pos (t : JsonObj) : 1 ≤ osize t := by
  cases t with
  | nil => simp [osize]
  | cons k v t => simp only [osize]; omega

/-- One-step evaluation of the value parser on a quote. -/
theorem pv_quote (fuel : Nat) (l : List Char) :
    parseVal (fuel + 1) ('"' :: l) =
      (parseStrBody l).map (fun p => (Json.str p.1, p.2)) := by
  rw [parseVal.eq_def]
  simp only []
  rw [skipWs_cons (by decide)]
  simp only []
  rw [if_pos trivial]

/-- One-step evaluation of the value parser on an opening bracket. -/
theorem pv_bracket (fuel : Nat) (l : List Char) :
    parseVal (fuel + 1) ('[' :: l) =
      (match skipWs l with
       | [] => none
       | c2 :: r2 =>
         if c2 = ']' then some (Json.arr .nil, r2)
         else (parseArrItems fuel l).map (fun p => (Json.arr p.1, p.2))) := by
  rw [parseVal.eq_def]
  simp only []
  rw [skipWs_cons (by decide)]
  simp only []
  rw [if_neg (by decide), if_pos trivial]

/-- One-step evaluation of the value parser on an opening brace. -/
theorem pv_brace (fuel : Nat) (l : List Char) :
    parseVal (fuel + 1) ('\x7b' :: l) =
      (match skipWs l with
       | [] => none
       | c2 :: r2 =>
         if c2 = '\x7d' then some (Json.obj .nil, r2)
         else (parseObjItems fuel l).map (fun p => (Json.obj p.1, p.2))) := by
  rw [parseVal.eq_def]
  simp only []
  rw [skipWs_cons (by decide)]
  simp only []
  rw [if_neg (by decide), if_neg (by decide), if_pos trivial]

/-- The parser inverts `JSON.stringify` on the fragment it emits, with
any remainder after the value untouched. -/
theorem parse_stringify (fuel : Nat) :
    (∀ (j : Json) (rest : List Char), SJson j → jsize j ≤ fuel →
        parseVal fuel (stringifyV j ++ rest) = some (j, rest)) ∧
    (∀ (h : Json) (t : JsonArr) (rest : List Char), SJson h → SArr t →
        1 + jsize h + asize t ≤ fuel →
        parseArrItems fuel (stringifyV h ++ (stringifyArrTail t ++ ']' :: rest)) =
          some (.cons h t, rest)) ∧
    (∀ (k : List Char) (v : Json) (t : JsonObj) (rest : List Char), SJson v → SObj t →
        1 + jsize v + osize t ≤ fuel →
        parseObjItems fuel
            ('"' :: (escape k ++ '"' :: ':' ::
              (stringifyV v ++ (stringifyObjTail t ++ '\x7d' :: rest)))) =
          some (.cons k v t, rest)) := by
  induction fuel with
  | zero =>
      refine ⟨fun j _ _ hsz => ?_, fun h _ _ _ _ hsz => ?_, fun _ v _ _ _ _ hsz => ?_⟩
      · have := jsize_pos j
        omega
      · omega
      · omega
  | succ fuel ih =>
      obtain ⟨ihV, ihA, ihO⟩ := ih
      refine ⟨?_, ?_, ?_⟩
      · -- parseVal
        intro j rest hj hsz
        cases hj with
        | str s =>
            simp only [stringifyV, List.cons_append, List.append_assoc, List.nil_append]
            rw [pv_quote, parseStrBody_escape]
            rfl
        | arr ha =>
            cases ha with
            | nil =>
                simp only [stringifyV, List.cons_append, List.nil_append]
                rw [pv_bracket]
                rw [skipWs_cons (by decide)]
                simp only []
                rw [if_pos trivial]
            | cons hh ht =>
                rename_i h t
                simp only [stringifyV, List.cons_append, List.append_assoc, List.nil_append]
                rw [pv_bracket]
                obtain ⟨c0, l0, hEq, hws, hne1, _, _⟩ :=
                  stringify_head hh (stringifyArrTail t ++ ']' :: rest)
                have harr := ihA h t rest hh ht (by
                  simp only [jsize, asize] at hsz ⊢
                  omega)
                rw [hEq] at harr ⊢
                rw [skipWs_cons hws]
                simp only []
                rw [if_neg hne1, harr]
                rfl
        | obj ho =>
            cases ho with
            | nil =>
                simp only [stringifyV, List.cons_append, List.nil_append]
                rw [pv_brace]
                rw [skipWs_cons (by decide)]
                simp only []
                rw [if_pos trivial]
            | cons k hv ht =>
                rename_i v t
                simp only [stringifyV, List.cons_append, List.append_assoc, List.nil_append]
                rw [pv_brace]
                have hobj := ihO k v t rest hv ht (by
                  simp only [jsize, osize] at hsz ⊢
                  omega)
                rw [skipWs_cons (by decide)]
                simp only []
                rw [if_neg (by decide), hobj]
                rfl
      · -- parseArrItems
        intro h t rest hh ht hsz
        rw [parseArrItems.eq_def]
        simp only []
        have hval := ihV h (stringifyArrTail t ++ ']' :: rest) hh (by
          have hp := asize_pos t
          omega)
        rw [hval]
        simp only [Option.bind_eq_bind, Option.some_bind]
        cases ht with
        | nil =>
            simp only [stringifyArrTail, List.nil_append]
            rw [skipWs_cons (by decide)]
            simp only []
            rw [if_neg (by decide), if_pos trivial]
        | cons hh2 ht2 =>
            rename_i h2 t2
            simp only [stringifyArrTail, List.cons_append, List.append_assoc]
            rw [skipWs_cons (by decide)]
            simp only []
            rw [if_pos trivial]
            have harr := ihA h2 t2 rest hh2 ht2 (by
              simp only [asize] at hsz ⊢
              omega)
            rw [harr]
            rfl
      · -- parseObjItems
        intro k v t rest hv ht hsz
        rw [parseObjItems.eq_def]
        simp only []
        rw [skipWs_cons (by decide)]
        simp only []
        rw [if_pos trivial]
        rw [show ∀ X, escape k ++ '"' :: ':' :: X = escape k ++ '"' :: (':' :: X) from
          fun _ => rfl]
        rw [parseStrBody_escape]
        simp only [Option.bind_eq_bind, Option.some_bind]
        rw [skipWs_cons (by decide)]
        simp only []
        rw [if_pos trivial]
        have hval := ihV v (stringifyObjTail t ++ '\x7d' :: rest) hv (by
          have hp := osize_pos t
          omega)
        rw [hval]
        simp only [Option.bind_eq_bind, Option.some_bind]
        cases ht with
        | nil =>
            simp only [stringifyObjTail, List.nil_append]
            rw [skipWs_cons (by decide)]
            simp only []
            rw [if_neg (by decide), if_pos trivial]
        | cons k2 hv2 ht2 =>
            rename_i v2 t2
            simp only [stringifyObjTail, List.cons_append, List.append_assoc,
              List.nil_append]
            rw [skipWs_cons (by decide)]
            simp only []
            rw [if_pos trivial]
            have hobj := ihO k2 v2 t2 rest hv2 ht2 (by
              simp only [osize] at hsz ⊢
              omega)
            rw [hobj]
            rfl

/-- `JSON.parse` inverts `JSON.stringify` on the fragment the poll
record occupies. -/
theorem jsonParse_stringifyV {j : Json} (hj : SJson j) :
    jsonParse (stringifyV j) = some j := by
  have hfuel : jsize j ≤ 2 * (stringifyV j).length + 2 := by
    have := jsize_le hj
    omega
  have hmain := (parse_stringify (2 * (stringifyV j).length + 2)).1 j [] hj hfuel
  rw [List.append_nil] at hmain
  rw [jsonParse, hmain]
  rfl

/-! ## Data model (`src/lib/types.ts`)

Fields follow the TypeScript interfaces; optional fields become
`Option` (with `none` covering both an absent key and an explicit
`undefined`, which `JSON.stringify` drops). -/

/-- `type Answer = '○' | '×'`. -/
inductive Answer where
  | yes
  | no
deriving DecidableEq

structure TimeSlot where
  id : String
  startTime : String
  endTime : String
  label : Option String
deriving DecidableEq

structure DateTimeCandidate where
  date : String
  timeSlots : List TimeSlot
deriving DecidableEq

structure User where
  name : String
  answers : List Answer
deriving DecidableEq

structure PollData where
  title : String
  candidates : List DateTimeCandidate
  users : List User
  dates : Option (List String)
deriving DecidableEq

/-! ## Serialization of a poll record

`JSON.stringify` on a `PollData` value: the JSON tree it produces,
field for field (`label` and `dates` keys are omitted when the value is
absent/`undefined`). -/

def jsonArrOfList : List Json → JsonArr
  | [] => .nil
  | j :: js => .cons j (jsonArrOfList js)

def answerToJson : Answer → Json
  | .yes => .str ['○']
  | .no => .str ['×']

def timeSlotToJson (ts : TimeSlot) : Json :=
  .obj (.cons "id".data (.str ts.id.data)
    (.cons "startTime".data (.str ts.startTime.data)
      (.cons "endTime".data (.str ts.endTime.data)
        (match ts.label with
         | some l => .cons "label".data (.str l.data) .nil
         | none => .nil))))

def candidateToJson (c : DateTimeCandidate) : Json :=
  .obj (.cons "date".data (.str c.date.data)
    (.cons "timeSlots".data (.arr (jsonArrOfList (c.timeSlots.map timeSlotToJson))) .nil))

def userToJson (u : User) : Json :=
  .obj (.cons "name".data (.str u.name.data)
    (.cons "answers".data (.arr (jsonArrOfList (u.answers.map answerToJson))) .nil))

def pollToJson (p : PollData) : Json :=
  .obj (.cons "title".data (.str p.title.data)
    (.cons "candidates".data (.arr (jsonArrOfList (p.candidates.map candidateToJson)))
      (.cons "users".data (.arr (jsonArrOfList (p.users.map userToJson)))
        (match p.dates with
         | some ds =>
             .cons "dates".data (.arr (jsonArrOfList (ds.map (fun d => .str d.data)))) .nil
         | none => .nil))))

/-! ### The serialized record lies in the roundtrip fragment -/

theorem sarr_jsonArrOfList {l : List Json} (h : ∀ j ∈ l, SJson j) :
    SArr (jsonArrOfList l) := by
  induction l with
  | nil => exact .nil
  | cons j js ih =>
      exact .cons (h j (by simp)) (ih fun x hx => h x (by simp [hx]))

theorem sjson_timeSlotToJson (ts : TimeSlot) : SJson (timeSlotToJson ts) := by
  obtain ⟨i, st, en, l⟩ := ts
  cases l with
  | none =>
      exact .obj (.cons _ (.str _) (.cons _ (.str _) (.cons _ (.str _) .nil)))
  | some lab =>
      exact .obj (.cons _ (.str _) (.cons _ (.str _) (.cons _ (.str _)
        (.cons _ (.str _) .nil))))

theorem sjson_candidateToJson (c : DateTimeCandidate) : SJson (candidateToJson c) :=
  .obj (.cons _ (.str _)
    (.cons _ (.arr (sarr_jsonArrOfList (by
      intro j hj
      simp only [List.mem_map] at hj
      obtain ⟨ts, _, rfl⟩ := hj
      exact sjson_timeSlotToJson ts))) .nil))

theorem sjson_answerToJson (a : Answer) : SJson (answerToJson a) := by
  cases a <;> exact .str _

theorem sjson_userToJson (u : User) : SJson (userToJson u) :=
  .obj (.cons _ (.str _)
    (.cons _ (.arr (sarr_jsonArrOfList (by
      intro j hj
      simp only [List.mem_map] at hj
      obtain ⟨a, _, rfl⟩ := hj
      exact sjson_answerToJson a))) .nil))

theorem sjson_pollToJson (p : PollData) : SJson (pollToJson p) := by
  have hc : SArr (jsonArrOfList (p.candidates.map candidateToJson)) :=
    sarr_jsonArrOfList (by
      intro j hj
      simp only [List.mem_map] at hj
      obtain ⟨c, _, rfl⟩ := hj
      exact sjson_candidateToJson c)
  have hu : SArr (jsonArrOfList (p.users.map userToJson)) :=
    sarr_jsonArrOfList (by
      intro j hj
      simp only [List.mem_map] at hj
      obtain ⟨u, _, rfl⟩ := hj
      exact sjson_userToJson u)
  obtain ⟨t, cs, us, d⟩ := p
  simp only at hc hu
  cases d with
  | none =>
      exact .obj (.cons _ (.str _) (.cons _ (.arr hc) (.cons _ (.arr hu) .nil)))
  | some ds =>
      exact .obj (.cons _ (.str _) (.cons _ (.arr hc) (.cons _ (.arr hu)
        (.cons _ (.arr (sarr_jsonArrOfList (by
          intro j hj
          simp only [List.mem_map] at hj
          obtain ⟨dd, _, rfl⟩ := hj
          exact .str _))) .nil))))

/-! ### Readback: `pollToJson` is injective -/

def strOfJson : Json → Option String
  | .str s => some ⟨s⟩
  | _ => none

def listOfArr (f : Json → Option α) : JsonArr → Option (List α)
  | .nil => some []
  | .cons h t => do
      let x ← f h
      let xs ← listOfArr f t
      some (x :: xs)

def answerOfJson : Json → Option Answer
  | .str s => if s = ['○'] then some .yes else if s = ['×'] then some .no else none
  | _ => none

def timeSlotOfJson : Json → Option TimeSlot
  | .obj (.cons _ i (.cons _ st (.cons _ en tail))) => do
      let idv ← strOfJson i
      let sv ← strOfJson st
      let ev ← strOfJson en
      match tail with
      | .nil => some ⟨idv, sv, ev, none⟩
      | .cons _ l .nil => do
          let lab ← strOfJson l
          some ⟨idv, sv, ev, some lab⟩
      | _ => none
  | _ => none

def candidateOfJson : Json → Option DateTimeCandidate
  | .obj (.cons _ d (.cons _ (.arr ts) .nil)) => do
      let dv ← strOfJson d
      let tss ← listOfArr timeSlotOfJson ts
      some ⟨dv, tss⟩
  | _ => none

def userOfJson : Json → Option User
  | .obj (.cons _ n (.cons _ (.arr ans) .nil)) => do
      let nv ← strOfJson n
      let avs ← listOfArr answerOfJson ans
      some ⟨nv, avs⟩
  | _ => none

def pollOfJson : Json → Option PollData
  | .obj (.cons _ t (.cons _ (.arr cs) (.cons _ (.arr us) tail))) => do
      let tv ← strOfJson t
      let cvs ← listOfArr candidateOfJson cs
      let uvs ← listOfArr userOfJson us
      match tail with
      | .nil => some ⟨tv, cvs, uvs, none⟩
      | .cons _ (.arr ds) .nil => do
          let dvs ← listOfArr strOfJson ds
          some ⟨tv, cvs, uvs, some dvs⟩
      | _ => none
  | _ => none

theorem listOfArr_map {α : Type} (f : α → Json) (g : Json → Option α) (l : List α)
    (h : ∀ x ∈ l, g (f x) = some x) :
    listOfArr g (jsonArrOfList (l.map f)) = some l := by
  induction l with
  | nil => rfl
  | cons x xs ih =>
      simp only [List.map_cons, jsonArrOfList, listOfArr]
      rw [h x (by simp), ih fun y hy => h y (by simp [hy])]
      rfl

theorem answerOfJson_toJson (a : Answer) : answerOfJson (answerToJson a) = some a := by
  cases a <;> rfl

theorem timeSlotOfJson_toJson (ts : TimeSlot) :
    timeSlotOfJson (timeSlotToJson ts) = some ts := by
  obtain ⟨i, s, e, l⟩ := ts
  cases l <;> rfl

theorem candidateOfJson_toJson (c : DateTimeCandidate) :
    candidateOfJson (candidateToJson c) = some c := by
  obtain ⟨d, ts⟩ := c
  simp only [candidateToJson, candidateOfJson]
  rw [listOfArr_map timeSlotToJson timeSlotOfJson ts
    (fun x _ => timeSlotOfJson_toJson x)]
  rfl

theorem userOfJson_toJson (u : User) : userOfJson (userToJson u) = some u := by
  obtain ⟨n, ans⟩ := u
  simp only [userToJson, userOfJson]
  rw [listOfArr_map answerToJson answerOfJson ans (fun x _ => answerOfJson_toJson x)]
  rfl

theorem pollOfJson_toJson (p : PollData) : pollOfJson (pollToJson p) = some p := by
  obtain ⟨t, cs, us, d⟩ := p
  cases d with
  | none =>
      simp only [pollToJson, pollOfJson]
      rw [listOfArr_map candidateToJson candidateOfJson cs
        (fun x _ => candidateOfJson_toJson x)]
      rw [listOfArr_map userToJson userOfJson us (fun x _ => userOfJson_toJson x)]
      rfl
  | some ds =>
      simp only [pollToJson, pollOfJson]
      rw [listOfArr_map candidateToJson candidateOfJson cs
        (fun x _ => candidateOfJson_toJson x)]
      rw [listOfArr_map userToJson userOfJson us (fun x _ => userOfJson_toJson x)]
      simp only [Option.bind_eq_bind, Option.some_bind]
      rw [listOfArr_map (fun x : String => Json.str x.data) strOfJson ds (fun x _ => rfl)]
      rfl

theorem pollToJson_injective {p q : PollData} (h : pollToJson p = pollToJson q) : p = q := by
  have hp := pollOfJson_toJson p
  have hq := pollOfJson_toJson q
  rw [h] at hp
  rw [hp] at hq
  exact (Option.some.injEq _ _).mp hq

/-! ## Persistence codec (`src/lib/poll-storage.ts`) -/

/-- `decodeURIComponent`, phase 1: split the input into literal
characters and `%XX` bytes; a `%` not followed by two hex digits
throws (`none`). -/
def uriItems : List Char → Option (List (Char ⊕ Nat))
  | [] => some []
  | c :: rest =>
    if c = '%' then
      match rest with
      | h1 :: h2 :: rest2 => do
          let a ← hexDigVal h1
          let b ← hexDigVal h2
          let t ← uriItems rest2
          some (Sum.inr (a * 16 + b) :: t)
      | _ => none
    else do
      let t ← uriItems rest
      some (Sum.inl c :: t)

/-- Maximal run of escaped bytes at the head of the item list. -/
def splitByteRun : List (Char ⊕ Nat) → List Nat × List (Char ⊕ Nat)
  | .inr b :: rest =>
      let p := splitByteRun rest
      (b :: p.1, p.2)
  | l => ([], l)

/-- `decodeURIComponent`, phase 2: each maximal `%XX` run must be valid
UTF-8 (else a `URIError` is thrown), literal characters pass through. -/
def assembleUri : Nat → List (Char ⊕ Nat) → Option (List Char)
  | _, [] => some []
  | 0, _ :: _ => none
  | fuel + 1, .inl c :: rest => (assembleUri fuel rest).map (c :: ·)
  | fuel + 1, .inr b :: rest =>
      let p := splitByteRun (.inr b :: rest)
      match utf8DecodeStrict p.1 with
      | some cs => (assembleUri fuel p.2).map (cs ++ ·)
      | none => none

/-- `decodeURIComponent(s)`: `none` models a thrown `URIError`. -/
def uriDecode (s : List Char) : Option (List Char) := do
  let items ← uriItems s
  assembleUri items.length items

/-- `safeBase64Encode`: UTF-8 bytes of the payload fed to `btoa`.  The
source wraps this in `try/catch` with a percent-encoding fallback, but
neither `TextEncoder` nor `btoa` on bytes below 256 can throw, so the
happy path is total. -/
def safeBase64Encode (s : List Char) : List Char :=
  b64Encode (utf8Encode s)

/-- `safeBase64Decode`: try the base64 regex, then `atob` +
`TextDecoder`; on either gate failing, fall back to
`decodeURIComponent` (whose own failure propagates as a throw, `none`
here). -/
def safeBase64Decode (s : List Char) : Option (List Char) :=
  if b64RegexMatch s then
    match b64Decode s with
    | some bytes => some (textDecodeUtf8 bytes)
    | none => uriDecode s
  else uriDecode s

/-- `encodePollToUrl`: `JSON.stringify` then `safeBase64Encode`.  The
`try/catch` returning `''` cannot fire for a `PollData` value
(`JSON.stringify` throws only on cycles or `BigInt`). -/
def encodePollToUrl (p : PollData) : List Char :=
  safeBase64Encode (stringifyV (pollToJson p))

def hasKeyObj : JsonObj → List Char → Bool
  | .nil, _ => false
  | .cons k _ t, key => if k = key then true else hasKeyObj t key

/-- The shape test of `decodePollFromUrl`: `parsed` must be truthy, of
`typeof 'object'`, and have an own property `title`.  A parsed JSON
array has `typeof 'object'` but never an own `title` property; `null`,
numbers, strings, booleans all fail. -/
def hasOwnTitle : Json → Bool
  | .obj members => hasKeyObj members "title".data
  | _ => false

/-- `decodePollFromUrl`: null for empty/whitespace input, then decode,
parse and shape-check, every failure path yielding null. -/
def decodePollFromUrl (s : List Char) : Option Json :=
  if trimIsEmpty s then none
  else
    match safeBase64Decode s with
    | none => none
    | some json =>
      match jsonParse json with
      | none => none
      | some parsed => if hasOwnTitle parsed then some parsed else none

/-! ### Codec facts -/

theorem utf8Encode_ne_nil {cs : List Char} (h : cs ≠ []) : utf8Encode cs ≠ [] := by
  match cs, h with
  | c :: cs, _ =>
      have := utf8EncodeChar_ne_nil c
      simp only [utf8Encode]
      exact fun hx => this (List.append_eq_nil.mp hx).1

theorem stringifyV_pollToJson_ne_nil (p : PollData) :
    stringifyV (pollToJson p) ≠ [] := by
  obtain ⟨t, cs, us, d⟩ := p
  cases d <;> simp [pollToJson, stringifyV]

theorem hasOwnTitle_pollToJson (p : PollData) : hasOwnTitle (pollToJson p) = true := by
  obtain ⟨t, cs, us, d⟩ := p
  cases d <;> simp [pollToJson, hasOwnTitle, hasKeyObj]

/-- The full decode-of-encode chain recovers exactly the serialized
JSON tree of the record. -/
theorem decodePollFromUrl_encodePollToUrl (p : PollData) :
    decodePollFromUrl (encodePollToUrl p) = some (pollToJson p) := by
  have hbytes : ∀ b ∈ utf8Encode (stringifyV (pollToJson p)), b < 256 :=
    utf8Encode_lt_256 _
  have hne : utf8Encode (stringifyV (pollToJson p)) ≠ [] :=
    utf8Encode_ne_nil (stringifyV_pollToJson_ne_nil p)
  have htrim : trimIsEmpty (encodePollToUrl p) = false :=
    not_trimIsEmpty_b64Encode _ hne hbytes
  have hregex : b64RegexMatch (encodePollToUrl p) = true :=
    b64RegexMatch_b64Encode _ hbytes
  have hb64 : b64Decode (encodePollToUrl p) = some (utf8Encode (stringifyV (pollToJson p))) :=
    b64Decode_b64Encode _ hbytes
  rw [decodePollFromUrl, if_neg (by simp [htrim])]
  rw [safeBase64Decode, if_pos hregex, hb64]
  simp only []
  rw [textDecodeUtf8_utf8Encode, jsonParse_stringifyV (sjson_pollToJson p)]
  simp only []
  rw [if_pos (hasOwnTitle_pollToJson p)]

/-! ## Index mapper (`src/lib/calendar-utils.ts`) -/

/-- The loop of `getFlattenedIndex`: sum of the slot counts of the
first `n` candidates. -/
def slotsBefore (cs : List DateTimeCandidate) (n : Nat) : Nat :=
  ((cs.take n).map (fun c => c.timeSlots.length)).sum

/-- Slot count of candidate `i` (0 when out of range, mirroring the
optional-chaining default). -/
def slotLenAt (cs : List DateTimeCandidate) (i : Nat) : Nat :=
  ((cs.get? i).map (fun c => c.timeSlots.length)).getD 0

/-- `getFlattenedIndex` (lines 139-156): `-1` when either index is
negative or out of bounds, else slots of the earlier candidates plus
the time-slot index. -/
def getFlattenedIndex (cs : List DateTimeCandidate) (ci tsi : Int) : Int :=
  if ci < 0 ∨ tsi < 0 ∨ (cs.length : Int) ≤ ci ∨ (slotLenAt cs ci.toNat : Int) ≤ tsi then
    -1
  else (slotsBefore cs ci.toNat : Int) + tsi

/-- The scan of `getOriginalIndices`: the source walks all slots
counting `cur` up to `flatIndex`; equivalently, each candidate either
contains the target position (when fewer than `timeSlots.length` slots
remain to skip) or the scan continues with the remainder. -/
def origIdxGo : List DateTimeCandidate → Nat → Nat → Option (Nat × Nat)
  | [], _, _ => none
  | c :: rest, ci, flat =>
      if flat < c.timeSlots.length then some (ci, flat)
      else origIdxGo rest (ci + 1) (flat - c.timeSlots.length)

/-- `getOriginalIndices` (lines 162-178): `null` for a negative or
too-large flat index. -/
def getOriginalIndices (cs : List DateTimeCandidate) (flat : Int) : Option (Nat × Nat) :=
  if flat < 0 then none
  else origIdxGo cs 0 flat.toNat

theorem origIdxGo_spec (cs : List DateTimeCandidate) (i j : Nat)
    (hi : i < cs.length) (hj : j < (cs.get ⟨i, hi⟩).timeSlots.length) :
    ∀ k, origIdxGo cs k (slotsBefore cs i + j) = some (k + i, j) := by
  induction cs generalizing i with
  | nil => exact absurd hi (by simp)
  | cons c rest ih =>
      intro k
      match i with
      | 0 =>
          simp only [List.get] at hj
          simp only [slotsBefore, List.take, List.map_nil, List.sum_nil, origIdxGo,
            List.take_zero, List.map_cons, List.sum_cons]
          rw [if_pos (by simpa using hj)]
          simp
      | i + 1 =>
          have hi2 : i < rest.length := by simpa using hi
          have hj2 : j < (rest.get ⟨i, hi2⟩).timeSlots.length := by simpa using hj
          have hstep : slotsBefore (c :: rest) (i + 1) =
              c.timeSlots.length + slotsBefore rest i := by
            simp [slotsBefore]
          rw [hstep, origIdxGo]
          rw [if_neg (by omega)]
          have harg : c.timeSlots.length + slotsBefore rest i + j - c.timeSlots.length =
              slotsBefore rest i + j := by omega
          rw [harg, ih i hi2 hj2 (k + 1)]
          have hk : k + 1 + i = k + (i + 1) := by omega
          rw [hk]

theorem origIdxGo_none (cs : List DateTimeCandidate) (flat : Nat)
    (h : slotsBefore cs cs.length ≤ flat) : ∀ k, origIdxGo cs k flat = none := by
  induction cs generalizing flat with
  | nil => intro k; rfl
  | cons c rest ih =>
      intro k
      have hlen : slotsBefore (c :: rest) (c :: rest).length =
          c.timeSlots.length + slotsBefore rest rest.length := by
        simp [slotsBefore]
      rw [origIdxGo, if_neg (by omega)]
      exact ih (flat - c.timeSlots.length) (by omega) (k + 1)

/-! ## Availability aggregator (`src/lib/poll-utils.ts`) -/

/-- `user.answers?.[flatIndex]`: `undefined` (`none`) for a negative or
out-of-range index. -/
def answersAt (u : User) (flat : Int) : Option Answer :=
  if flat < 0 then none else u.answers.get? flat.toNat

/-- `getDateTimeSummary` (lines 30-47), returning the `available`
field: 0 when there are no users or the indices do not address a time
slot, else the number of users whose answer at the flattened index is
`'○'` (a missing entry counting as negative). -/
def getDateTimeSummary (p : PollData) (ci tsi : Nat) : Nat :=
  if p.users.length = 0 ∨ ((p.candidates.get? ci).bind (fun c => c.timeSlots.get? tsi)) = none
  then 0
  else
    p.users.countP (fun u => answersAt u (getFlattenedIndex p.candidates ci tsi) = some .yes)

structure BestDateTime where
  candidateIndex : Nat
  timeSlotIndex : Nat
  available : Nat
  date : String
  timeSlot : TimeSlot
deriving DecidableEq

/-- Inner `forEach` of `getBestDateTimes`: walk the time slots of
candidate `ci` from index `tsi`, keeping slots whose head-count equals
the total user count. -/
def bestSlotsInner (p : PollData) (ci : Nat) (date : String) :
    Nat → List TimeSlot → List BestDateTime
  | _, [] => []
  | tsi, ts :: rest =>
      (if getDateTimeSummary p ci tsi = p.users.length ∧ 0 < p.users.length then
        [{ candidateIndex := ci, timeSlotIndex := tsi,
           available := getDateTimeSummary p ci tsi, date := date, timeSlot := ts }]
       else []) ++ bestSlotsInner p ci date (tsi + 1) rest

/-- Outer `forEach` of `getBestDateTimes`. -/
def bestSlotsOuter (p : PollData) : Nat → List DateTimeCandidate → List BestDateTime
  | _, [] => []
  | ci, c :: rest => bestSlotsInner p ci c.date 0 c.timeSlots ++ bestSlotsOuter p (ci + 1) rest

/-- `getBestDateTimes` (lines 53-76): empty without users or
candidates; otherwise every slot, in candidate order then time-slot
order, whose `available` equals the user count. -/
def getBestDateTimes (p : PollData) : List BestDateTime :=
  if p.users.length = 0 ∨ p.candidates.length = 0 then []
  else bestSlotsOuter p 0 p.candidates

/-- `toggleAnswer` (lines 81-83). -/
def toggleAnswer (a : Answer) : Answer :=
  if a = .yes then .no else .yes

/-- `getTotalTimeSlots` (lines 95-99). -/
def getTotalTimeSlots (cs : List DateTimeCandidate) : Nat :=
  (cs.map (fun c => c.timeSlots.length)).sum

/-- The filter of `migrateDatesToCandidates`: keep entries of the
dynamic array that are strings (`some`) with non-blank trim. -/
def keptDates (dates : List (Option String)) : List String :=
  dates.filterMap (fun d =>
    match d with
    | some s => if trimIsEmpty s.data then none else some s
    | none => none)

/-- The `.map` of `migrateDatesToCandidates` over the kept entries,
with the position among the kept entries selecting the generated id. -/
def migrateGo (ids : Nat → String) : Nat → List String → List DateTimeCandidate
  | _, [] => []
  | i, s :: rest =>
      { date := s,
        timeSlots := [{ id := ids i, startTime := "09:00", endTime := "18:00",
                        label := some "終日" }] } :: migrateGo ids (i + 1) rest

/-- `migrateDatesToCandidates` (lines 104-119).  `generateId` is a
platform UUID source, abstracted as `ids`, indexed by position among
the kept entries; entries that are not strings are modelled as
`none`. -/
def migrateDatesToCandidates (ids : Nat → String) (dates : List (Option String)) :
    List DateTimeCandidate :=
  migrateGo ids 0 (keptDates dates)

/-- `migrateDatesToCandidates` on a well-typed string array, as invoked
by the hydration effect. -/
def migrateStrDates (ids : Nat → String) (dates : List String) : List DateTimeCandidate :=
  migrateDatesToCandidates ids (dates.map some)

/-! ## Poll state controller (`src/hooks/use-poll-data.ts`)

The React hook owns one `PollData` value; each mutation callback is a
pure state update (modelled below) followed by a debounced persistence
scheduling (modelled as the `DebounceState` machine). -/

/-- JS `String.prototype.trim`. -/
def jsTrim (s : String) : String :=
  ⟨((s.data.dropWhile isJsWs).reverse.dropWhile isJsWs).reverse⟩

/-- The hydration migration (lines 42-51), applied to a successfully
decoded record: when `decoded.dates` is truthy — any present array,
even an empty one — and `decoded.candidates` is absent or empty, the
legacy list is migrated into `candidates` and removed; otherwise the
record is used as-is. -/
def hydrateRecord (ids : Nat → String) (decoded : PollData) : PollData :=
  match decoded.dates with
  | some ds =>
      if decoded.candidates.length = 0 then
        { decoded with candidates := migrateStrDates ids ds, dates := none }
      else decoded
  | none => decoded

/-- Pure state update of `handleCandidatesChange` (lines 122-142):
replace the candidates and positionally resize every user's answers to
the new flattened total, truncating or padding with `'×'`. -/
def handleCandidatesChange (candidates : List DateTimeCandidate) (prev : PollData) :
    PollData :=
  let totalSlots := getTotalTimeSlots candidates
  { prev with
    candidates := candidates,
    users := prev.users.map (fun u =>
      { u with answers := u.answers.take totalSlots ++
          List.replicate (totalSlots - u.answers.length) Answer.no }) }

/-- Pure state update of `submitAnswer` (lines 145-164): trim the name,
do nothing when it is empty, else replace the first user with that
exact name or append a new one. -/
def submitAnswer (userName : String) (answers : List Answer) (prev : PollData) : PollData :=
  let name := jsTrim userName
  if name = "" then prev
  else
    match prev.users.findIdx? (fun u => u.name = name) with
    | some idx => { prev with users := prev.users.set idx ⟨name, answers⟩ }
    | none => { prev with users := prev.users ++ [⟨name, answers⟩] }

/-- JS `Array.prototype.map` with the element index, the index running
from `i`. -/
def mapWithIdx (f : Nat → α → β) : Nat → List α → List β
  | _, [] => []
  | i, a :: l => f i a :: mapWithIdx f (i + 1) l

/-- Pure state update of `toggleExistingAnswer` (lines 167-184): flip
the one answer addressed by `(userIdx, flatIndex)`; out-of-range
indices match no position and leave the record unchanged. -/
def toggleExistingAnswer (userIdx flatIndex : Int) (prev : PollData) : PollData :=
  { prev with
    users := mapWithIdx (fun i u =>
      if (i : Int) = userIdx then
        { u with answers :=
            (mapWithIdx (fun j a =>
              if (j : Int) = flatIndex then (if a = .yes then .no else .yes) else a)
              0 u.answers) }
      else u) 0 prev.users }

/-! ### Debounced persistence (lines 67-119)

`updateUrlAndStorage` clears any pending timer and schedules, 500 ms
later, a write of the state passed to it (the state just produced by
the mutation; the `handleTitleChange` variant reads the always-current
`pollDataRef` at fire time and overrides the title, which is the same
latest state).  The machine below has one in-memory state, at most one
pending scheduled write, and the log of performed writes. -/

structure DebounceState where
  mem : PollData
  pending : Option PollData
  writes : List PollData
deriving DecidableEq

/-- A mutation: update the in-memory state synchronously, cancel any
pending write, schedule a write of the new state. -/
def applyMutation (f : PollData → PollData) (σ : DebounceState) : DebounceState :=
  { mem := f σ.mem, pending := some (f σ.mem), writes := σ.writes }

/-- The debounce delay elapsing with no further mutation: the pending
write is performed. -/
def fireTimer (σ : DebounceState) : DebounceState :=
  match σ.pending with
  | some d => { σ with pending := none, writes := σ.writes ++ [d] }
  | none => σ

def applyMutations (fs : List (PollData → PollData)) (σ : DebounceState) : DebounceState :=
  fs.foldl (fun σ f => applyMutation f σ) σ

/-! ## Claims -/

theorem slotsBefore_full (cs : List DateTimeCandidate) :
    slotsBefore cs cs.length = getTotalTimeSlots cs := by
  rw [slotsBefore, getTotalTimeSlots, List.take_length]

/-- C3: for every candidates list and in-bounds pair `(i, j)`,
`getOriginalIndices` inverts `getFlattenedIndex`; out-of-bounds pairs
flatten to the `-1` sentinel, and negative or overlarge flat indices
unflatten to `null`. -/
theorem C3_index_mapper_inverse (cs : List DateTimeCandidate) :
    (∀ (i j : Nat) (c : DateTimeCandidate), cs.get? i = some c → j < c.timeSlots.length →
       getOriginalIndices cs (getFlattenedIndex cs i j) = some (i, j)) ∧
    (∀ i j : Int,
       (i < 0 ∨ j < 0 ∨ (cs.length : Int) ≤ i ∨ (slotLenAt cs i.toNat : Int) ≤ j) →
       getFlattenedIndex cs i j = -1) ∧
    (∀ flat : Int, (flat < 0 ∨ (getTotalTimeSlots cs : Int) ≤ flat) →
       getOriginalIndices cs flat = none) := by
  refine ⟨?_, ?_, ?_⟩
  · intro i j c hc hj
    have hi : i < cs.length := by
      by_contra hge
      rw [List.get?_eq_none.mpr (by omega)] at hc
      exact absurd hc (by simp)
    have hcget : cs.get ⟨i, hi⟩ = c := by
      have hx := List.get?_eq_get hi
      rw [hx] at hc
      exact (Option.some.injEq _ _).mp hc
    have hslot : slotLenAt cs i = c.timeSlots.length := by
      rw [slotLenAt, List.get?_eq_get hi, hcget]
      rfl
    rw [getFlattenedIndex]
    rw [if_neg (by
      simp only [Int.toNat_natCast, hslot]
      omega)]
    rw [getOriginalIndices, if_neg (by omega)]
    have htn : (((slotsBefore cs ((i : Int)).toNat) : Int) + (j : Int)).toNat =
        slotsBefore cs i + j := by
      simp only [Int.toNat_natCast]
      omega
    rw [htn]
    have hj2 : j < (cs.get ⟨i, hi⟩).timeSlots.length := by rw [hcget]; exact hj
    have := origIdxGo_spec cs i j hi hj2 0
    rw [this]
    simp
  · intro i j h
    rw [getFlattenedIndex, if_pos h]
  · intro flat h
    rcases h with h | h
    · rw [getOriginalIndices, if_pos h]
    · rw [getOriginalIndices, if_neg (by omega)]
      exact origIdxGo_none cs flat.toNat (by rw [slotsBefore_full]; omega) 0

/-- Witness for C3 at a concrete two-candidate poll. -/
theorem C3_index_mapper_inverse_witness :
    getOriginalIndices
        [⟨"2025-01-01", [⟨"s1", "09:00", "12:00", none⟩, ⟨"s2", "13:00", "17:00", none⟩]⟩,
         ⟨"2025-01-02", [⟨"s3", "09:00", "12:00", none⟩]⟩]
        (getFlattenedIndex
          [⟨"2025-01-01", [⟨"s1", "09:00", "12:00", none⟩, ⟨"s2", "13:00", "17:00", none⟩]⟩,
           ⟨"2025-01-02", [⟨"s3", "09:00", "12:00", none⟩]⟩] 1 0) = some (1, 0) :=
  (C3_index_mapper_inverse _).1 1 0 ⟨"2025-01-02", [⟨"s3", "09:00", "12:00", none⟩]⟩
    (by rfl) (by decide)

/-- C5: `handleCandidatesChange` replaces the candidates and resizes
every respondent's answers positionally to the new flattened total:
the prefix below both the old length and the new total is unchanged,
entries beyond the old length are padded with `'×'`, and trailing old
entries beyond the new total are dropped. -/
theorem C5_candidates_change_resizes (cands : List DateTimeCandidate) (prev : PollData) :
    (handleCandidatesChange cands prev).candidates = cands ∧
    (handleCandidatesChange cands prev).users.length = prev.users.length ∧
    (∀ k u, prev.users.get? k = some u →
       ∃ u', (handleCandidatesChange cands prev).users.get? k = some u' ∧
         u'.name = u.name ∧
         u'.answers.length = getTotalTimeSlots cands ∧
         (∀ i, i < u.answers.length → i < getTotalTimeSlots cands →
            u'.answers.get? i = u.answers.get? i) ∧
         (∀ i, u.answers.length ≤ i → i < getTotalTimeSlots cands →
            u'.answers.get? i = some .no)) := by
  refine ⟨rfl, by simp [handleCandidatesChange], ?_⟩
  intro k u hk
  refine ⟨⟨u.name, u.answers.take (getTotalTimeSlots cands) ++
      List.replicate (getTotalTimeSlots cands - u.answers.length) Answer.no⟩,
    by rw [handleCandidatesChange]; simp only [List.get?_map, hk]; rfl, rfl, ?_, ?_, ?_⟩
  · simp only [List.length_append, List.length_take, List.length_replicate]
    omega
  · intro i hiu hit
    have hlen : i < (u.answers.take (getTotalTimeSlots cands)).length := by
      simp only [List.length_take]
      omega
    rw [List.get?_append hlen, List.get?_take hit]
  · intro i hiu hit
    have hlen : (u.answers.take (getTotalTimeSlots cands)).length ≤ i := by
      simp only [List.length_take]
      omega
    rw [List.get?_append_right hlen]
    simp only [List.length_take]
    rw [List.get?_eq_get (by simp only [List.length_replicate]; omega)]
    simp

/-- Witness for C5: growing the flattened total from 1 to 2 pads with
`'×'`. -/
theorem C5_candidates_change_resizes_witness :
    ∃ u', (handleCandidatesChange
        [⟨"2025-01-01", [⟨"s1", "09:00", "12:00", none⟩, ⟨"s2", "13:00", "17:00", none⟩]⟩]
        ⟨"t", [⟨"2025-01-01", [⟨"s1", "09:00", "12:00", none⟩]⟩], [⟨"alice", [.yes]⟩],
          none⟩).users.get? 0 = some u' ∧
      u'.name = "alice" ∧
      u'.answers.length = getTotalTimeSlots
        [⟨"2025-01-01", [⟨"s1", "09:00", "12:00", none⟩, ⟨"s2", "13:00", "17:00", none⟩]⟩] ∧
      (∀ i, i < ([Answer.yes] : List Answer).length →
         i < getTotalTimeSlots
           [⟨"2025-01-01", [⟨"s1", "09:00", "12:00", none⟩, ⟨"s2", "13:00", "17:00", none⟩]⟩] →
         u'.answers.get? i = ([Answer.yes] : List Answer).get? i) ∧
      (∀ i, ([Answer.yes] : List Answer).length ≤ i →
         i < getTotalTimeSlots
           [⟨"2025-01-01", [⟨"s1", "09:00", "12:00", none⟩, ⟨"s2", "13:00", "17:00", none⟩]⟩] →
         u'.answers.get? i = some .no) :=
  (C5_candidates_change_resizes _ _).2.2 0 ⟨"alice", [.yes]⟩ (by rfl)

/-- C6 counterexample: a loaded record with an **empty** legacy
`dates` list and empty candidates *does* trigger the migration branch
(`decoded.dates` is truthy for any present array), which removes the
`dates` field — the record is not used as-is, contradicting the
"non-empty legacy list" trigger condition. -/
theorem C6_counterexample :
    hydrateRecord (fun _ => "id") ⟨"t", [], [], some []⟩ = ⟨"t", [], [], none⟩ ∧
    (⟨"t", [], [], some []⟩ : PollData) ≠ ⟨"t", [], [], none⟩ :=
  ⟨rfl, by decide⟩

/-- C6 (amended): the migration triggers exactly when the loaded
record's `dates` field is present — even as an empty list — and the
candidates list is empty/absent; candidates are then replaced by the
migrated list (an empty legacy list migrates to no candidates) and the
legacy field is removed.  When `dates` is absent, or candidates is
populated, the record is used as-is (the legacy field, if any, kept in
place but ignored). -/
theorem C6_hydration_trigger (ids : Nat → String) (p : PollData) :
    (∀ ds, p.dates = some ds → p.candidates = [] →
       hydrateRecord ids p =
         { p with candidates := migrateStrDates ids ds, dates := none }) ∧
    (p.dates = none → hydrateRecord ids p = p) ∧
    (p.candidates ≠ [] → hydrateRecord ids p = p) := by
  refine ⟨?_, ?_, ?_⟩
  · intro ds hds hc
    rw [hydrateRecord, hds]
    simp only []
    rw [if_pos (by rw [hc]; rfl)]
  · intro hds
    rw [hydrateRecord, hds]
  · intro hc
    rw [hydrateRecord]
    cases hds : p.dates with
    | none => rfl
    | some ds =>
        simp only []
        rw [if_neg (by simpa using hc)]

/-- Witness for C6 (amended) at a concrete legacy-only record. -/
theorem C6_hydration_trigger_witness :
    hydrateRecord (fun _ => "id") ⟨"t", [], [], some ["2025-01-01"]⟩ =
      { (⟨"t", [], [], some ["2025-01-01"]⟩ : PollData) with
        candidates := migrateStrDates (fun _ => "id") ["2025-01-01"], dates := none } :=
  (C6_hydration_trigger (fun _ => "id") ⟨"t", [], [], some ["2025-01-01"]⟩).1
    ["2025-01-01"] rfl rfl

theorem findIdx?_some_pred {α : Type} (p : α → Bool) (l : List α) (i : Nat)
    (h : l.findIdx? p = some i) : ∃ x, l.get? i = some x ∧ p x = true := by
  obtain ⟨hlt, hidx⟩ := List.findIdx?_eq_some_iff_findIdx_eq.mp h
  subst hidx
  refine ⟨l.get ⟨_, hlt⟩, List.get?_eq_get hlt, ?_⟩
  simpa [List.get_eq_getElem] using @List.findIdx_getElem _ p l hlt

theorem findIdx?_none_pred {α : Type} (p : α → Bool) (l : List α)
    (h : l.findIdx? p = none) : ∀ x ∈ l, p x = false :=
  List.findIdx?_eq_none_iff.mp h

theorem list_set_same {α : Type} (l : List α) (i : Nat) (a : α) (h : l.get? i = some a) :
    l.set i a = l := by
  induction l generalizing i with
  | nil => rfl
  | cons x l ih =>
      match i with
      | 0 =>
          have hx : x = a := by simpa using h
          rw [List.set, hx]
      | i + 1 =>
          rw [List.set, ih i (by simpa using h)]

/-- C7: `submitAnswer` trims the name; an empty trimmed name is a
no-op; an existing exact (case-sensitive) name has its whole answer
vector replaced in place, keeping the respondent count; a new name is
appended; the operation preserves uniqueness of respondent names. -/
theorem C7_submitAnswer_upsert (userName : String) (answers : List Answer) (prev : PollData) :
    (jsTrim userName = "" → submitAnswer userName answers prev = prev) ∧
    (∀ idx, jsTrim userName ≠ "" →
       prev.users.findIdx? (fun u => u.name = jsTrim userName) = some idx →
       (submitAnswer userName answers prev).users =
         prev.users.set idx ⟨jsTrim userName, answers⟩ ∧
       (submitAnswer userName answers prev).users.length = prev.users.length) ∧
    (jsTrim userName ≠ "" →
       prev.users.findIdx? (fun u => u.name = jsTrim userName) = none →
       (submitAnswer userName answers prev).users =
         prev.users ++ [⟨jsTrim userName, answers⟩]) ∧
    ((prev.users.map User.name).Nodup →
       ((submitAnswer userName answers prev).users.map User.name).Nodup) := by
  refine ⟨?_, ?_, ?_, ?_⟩
  · intro h
    simp only [submitAnswer, h]
    rw [if_pos trivial]
  · intro idx hne hfind
    simp only [submitAnswer]
    rw [if_neg hne, hfind]
    exact ⟨rfl, by simp⟩
  · intro hne hfind
    simp only [submitAnswer]
    rw [if_neg hne, hfind]
  · intro hnd
    by_cases he : jsTrim userName = ""
    · simp only [submitAnswer, he]
      rw [if_pos trivial]
      exact hnd
    · simp only [submitAnswer]
      rw [if_neg he]
      cases hfind : prev.users.findIdx? (fun u => u.name = jsTrim userName) with
      | some idx =>
          simp only []
          obtain ⟨x, hx, hpx⟩ := findIdx?_some_pred _ _ _ hfind
          have hxn : x.name = jsTrim userName := of_decide_eq_true hpx
          have hmap : (prev.users.set idx ⟨jsTrim userName, answers⟩).map User.name =
              prev.users.map User.name := by
            rw [List.map_set]
            exact list_set_same _ _ _ (by rw [List.get?_map, hx]; simp [hxn])
          rw [hmap]
          exact hnd
      | none =>
          simp only []
          have hnotin : ∀ x ∈ prev.users, x.name ≠ jsTrim userName := by
            intro x hx
            have := findIdx?_none_pred _ _ hfind x hx
            exact of_decide_eq_false this
          rw [List.map_append]
          simp only [List.map_cons, List.map_nil]
          rw [List.nodup_append]
          refine ⟨hnd, List.nodup_singleton _, ?_⟩
          intro a ha
          simp only [List.mem_map] at ha
          obtain ⟨x, hx, rfl⟩ := ha
          simp only [List.mem_singleton]
          exact hnotin x hx

/-- Witness for C7: submitting under the existing name `alice` (after
trimming) replaces the stored vector, count unchanged. -/
theorem C7_submitAnswer_upsert_witness :
    (submitAnswer " alice " [.yes] ⟨"t", [], [⟨"alice", [.no]⟩], none⟩).users =
      ([⟨"alice", [.no]⟩] : List User).set 0 ⟨jsTrim " alice ", [.yes]⟩ ∧
    (submitAnswer " alice " [.yes] ⟨"t", [], [⟨"alice", [.no]⟩], none⟩).users.length =
      ([⟨"alice", [.no]⟩] : List User).length :=
  (C7_submitAnswer_upsert " alice " [.yes] ⟨"t", [], [⟨"alice", [.no]⟩], none⟩).2.1 0
    (by decide) (by rfl)

theorem migrateGo_map_date (ids : Nat → String) :
    ∀ (l : List String) (i : Nat), (migrateGo ids i l).map DateTimeCandidate.date = l := by
  intro l
  induction l with
  | nil => intro i; rfl
  | cons s rest ih =>
      intro i
      rw [migrateGo, List.map_cons, ih (i + 1)]

theorem migrateGo_slots (ids : Nat → String) :
    ∀ (l : List String) (i : Nat) (c : DateTimeCandidate), c ∈ migrateGo ids i l →
      ∃ k, c.timeSlots =
        [{ id := ids k, startTime := "09:00", endTime := "18:00", label := some "終日" }] := by
  intro l
  induction l with
  | nil => intro i c hc; exact absurd hc (by simp [migrateGo])
  | cons s rest ih =>
      intro i c hc
      rw [migrateGo] at hc
      rcases List.mem_cons.mp hc with hc | hc
      · exact ⟨i, by rw [hc]⟩
      · exact ih (i + 1) c hc

/-- C8: `migrateDatesToCandidates` drops entries that are not strings
or are blank after trimming, keeps the surviving days in order as the
`date` of exactly one candidate each, every candidate carrying exactly
one default all-day slot `09:00`–`18:00`; the spec's example input
yields exactly two candidates in day order. -/
theorem C8_migrate_legacy (ids : Nat → String) (dates : List (Option String)) :
    ((migrateDatesToCandidates ids dates).map DateTimeCandidate.date = keptDates dates) ∧
    (∀ c ∈ migrateDatesToCandidates ids dates,
       ∃ i, c.timeSlots =
         [{ id := ids i, startTime := "09:00", endTime := "18:00", label := some "終日" }]) ∧
    migrateDatesToCandidates ids
        [some "2025-01-01", some "", some "  ", some "2025-01-02"] =
      [⟨"2025-01-01", [⟨ids 0, "09:00", "18:00", some "終日"⟩]⟩,
       ⟨"2025-01-02", [⟨ids 1, "09:00", "18:00", some "終日"⟩]⟩] := by
  refine ⟨migrateGo_map_date ids (keptDates dates) 0,
    fun c hc => migrateGo_slots ids (keptDates dates) 0 c hc, ?_⟩
  rfl

/-- Witness for C8 on the spec's example: the two kept days in
order. -/
theorem C8_migrate_legacy_witness :
    ∃ i, (⟨"2025-01-01", [⟨"u0", "09:00", "18:00", some "終日"⟩]⟩ : DateTimeCandidate).timeSlots
      = [{ id := (fun _ : Nat => "u0") i, startTime := "09:00", endTime := "18:00",
           label := some "終日" }] :=
  (C8_migrate_legacy (fun _ : Nat => "u0")
      [some "2025-01-01", some "", some "  ", some "2025-01-02"]).2.1
    ⟨"2025-01-01", [⟨"u0", "09:00", "18:00", some "終日"⟩]⟩ (by decide)

theorem applyMutations_ne_nil (fs : List (PollData → PollData)) (σ0 : DebounceState)
    (h : fs ≠ []) :
    applyMutations fs σ0 =
      ⟨fs.foldl (fun m f => f m) σ0.mem, some (fs.foldl (fun m f => f m) σ0.mem),
        σ0.writes⟩ := by
  induction fs generalizing σ0 with
  | nil => exact absurd rfl h
  | cons f fs ih =>
      by_cases hfs : fs = []
      · subst hfs
        rfl
      · rw [show applyMutations (f :: fs) σ0 = applyMutations fs (applyMutation f σ0) from by
          rw [applyMutations, applyMutations, List.foldl_cons]]
        rw [ih (applyMutation f σ0) hfs, List.foldl_cons]
        rfl

/-- C9: under the debounce machine, a burst of `N ≥ 1` mutations inside
one quiet window performs no write while the burst lasts, and the
single timer expiry afterwards performs exactly one write, carrying the
state after the last mutation; no intermediate state is ever written. -/
theorem C9_debounce_coalesces (σ0 : DebounceState) (fs : List (PollData → PollData))
    (h : fs ≠ []) :
    (applyMutations fs σ0).writes = σ0.writes ∧
    (applyMutations fs σ0).mem = fs.foldl (fun m f => f m) σ0.mem ∧
    fireTimer (applyMutations fs σ0) =
      ⟨fs.foldl (fun m f => f m) σ0.mem, none,
        σ0.writes ++ [fs.foldl (fun m f => f m) σ0.mem]⟩ := by
  rw [applyMutations_ne_nil fs σ0 h]
  exact ⟨rfl, rfl, rfl⟩

/-- Witness for C9: two title edits inside the window produce exactly
one write, of the second state. -/
theorem C9_debounce_coalesces_witness :
    (applyMutations [fun p => { p with title := "a" }, fun p => { p with title := "b" }]
        ⟨⟨"", [], [], none⟩, none, []⟩).writes = (⟨⟨"", [], [], none⟩, none, []⟩ : DebounceState).writes ∧
    (applyMutations [fun p => { p with title := "a" }, fun p => { p with title := "b" }]
        ⟨⟨"", [], [], none⟩, none, []⟩).mem =
      ([fun p => { p with title := "a" }, fun p => { p with title := "b" }] :
        List (PollData → PollData)).foldl (fun m f => f m) (⟨⟨"", [], [], none⟩, none, []⟩ : DebounceState).mem ∧
    fireTimer (applyMutations
        [fun p => { p with title := "a" }, fun p => { p with title := "b" }]
        ⟨⟨"", [], [], none⟩, none, []⟩) =
      ⟨([fun p => { p with title := "a" }, fun p => { p with title := "b" }] :
          List (PollData → PollData)).foldl (fun m f => f m)
          (⟨⟨"", [], [], none⟩, none, []⟩ : DebounceState).mem, none,
        (⟨⟨"", [], [], none⟩, none, []⟩ : DebounceState).writes ++
          [([fun p => { p with title := "a" }, fun p => { p with title := "b" }] :
              List (PollData → PollData)).foldl (fun m f => f m)
              (⟨⟨"", [], [], none⟩, none, []⟩ : DebounceState).mem]⟩ :=
  C9_debounce_coalesces ⟨⟨"", [], [], none⟩, none, []⟩
    [fun p => { p with title := "a" }, fun p => { p with title := "b" }] (by simp)

theorem mapWithIdx_id {α : Type} (h : Nat → α → α) :
    ∀ (l : List α) (i0 : Nat), (∀ i a, i0 ≤ i → i < i0 + l.length → h i a = a) →
      mapWithIdx h i0 l = l := by
  intro l
  induction l with
  | nil => intro i0 _; rfl
  | cons a l ih =>
      intro i0 hid
      rw [mapWithIdx, hid i0 a (le_refl _) (by simp),
        ih (i0 + 1) (fun i b hi1 hi2 => hid i b (by omega) (by
          simp only [List.length_cons]
          omega))]

theorem mapWithIdx_invol {α : Type} (g : Nat → α → α) (hg : ∀ i a, g i (g i a) = a) :
    ∀ (l : List α) (i0 : Nat), mapWithIdx g i0 (mapWithIdx g i0 l) = l := by
  intro l
  induction l with
  | nil => intro i0; rfl
  | cons a l ih =>
      intro i0
      rw [mapWithIdx, mapWithIdx, hg, ih]

/-- C10: toggling the same `(userIdx, flatIndex)` twice restores the
record exactly; the underlying pure step swaps `'○'` and `'×'` and is
an involution; out-of-range indices (negative or past the respondent
list, or a negative flat index) leave the record unchanged. -/
theorem C10_toggle_involution (p : PollData) (u f : Int) :
    toggleExistingAnswer u f (toggleExistingAnswer u f p) = p ∧
    (toggleAnswer .yes = .no ∧ toggleAnswer .no = .yes ∧
      ∀ a, toggleAnswer (toggleAnswer a) = a) ∧
    ((u < 0 ∨ (p.users.length : Int) ≤ u) → toggleExistingAnswer u f p = p) ∧
    (f < 0 → toggleExistingAnswer u f p = p) := by
  have hinner : ∀ (j : Nat) (a : Answer),
      (fun (j : Nat) (a : Answer) =>
        if (j : Int) = f then (if a = Answer.yes then Answer.no else Answer.yes) else a) j
        ((fun (j : Nat) (a : Answer) =>
          if (j : Int) = f then (if a = Answer.yes then Answer.no else Answer.yes) else a) j a)
        = a := by
    intro j a
    by_cases hj : (j : Int) = f
    · simp only [if_pos hj]
      cases a <;> rfl
    · simp only [if_neg hj]
  refine ⟨?_, ⟨rfl, rfl, fun a => by cases a <;> rfl⟩, ?_, ?_⟩
  · simp only [toggleExistingAnswer]
    rw [mapWithIdx_invol _ (by
      intro i x
      by_cases hi : (i : Int) = u
      · simp only [if_pos hi]
        rw [mapWithIdx_invol _ hinner]
      · simp only [if_neg hi])]
  · intro hu
    simp only [toggleExistingAnswer]
    rw [mapWithIdx_id _ _ _ (by
      intro i a hi1 hi2
      rw [if_neg (by omega)])]
  · intro hf
    simp only [toggleExistingAnswer]
    rw [mapWithIdx_id _ _ _ (by
      intro i a hi1 hi2
      by_cases hi : (i : Int) = u
      · rw [if_pos hi]
        rw [mapWithIdx_id _ _ _ (fun j b hj1 hj2 => by rw [if_neg (by omega)])]
      · rw [if_neg hi])]

/-- Witness for C10: the out-of-range clauses at a concrete record. -/
theorem C10_toggle_involution_witness :
    toggleExistingAnswer 5 0 ⟨"t", [], [⟨"alice", [.yes]⟩], none⟩ =
      ⟨"t", [], [⟨"alice", [.yes]⟩], none⟩ :=
  (C10_toggle_involution ⟨"t", [], [⟨"alice", [.yes]⟩], none⟩ 5 0).2.2.1
    (by right; decide)

/-! ### C4: the aggregation policy -/

/-- Modelled from the spec's words for the policy-refinement claim C4:
the **unanimity** policy ("slots where every respondent is
affirmative"), enumerating candidate × time-slot in order; a slot
qualifies when every respondent's answer at its flattened index is
affirmative (a missing entry counting as negative), and carries the
full respondent count. -/
def unanimousInner (p : PollData) (ci : Nat) (date : String) :
    Nat → List TimeSlot → List BestDateTime
  | _, [] => []
  | tsi, ts :: rest =>
      (if p.users.all
          (fun u => answersAt u (getFlattenedIndex p.candidates ci tsi) = some .yes) then
        [{ candidateIndex := ci, timeSlotIndex := tsi, available := p.users.length,
           date := date, timeSlot := ts }]
       else []) ++ unanimousInner p ci date (tsi + 1) rest

def unanimousOuter (p : PollData) : Nat → List DateTimeCandidate → List BestDateTime
  | _, [] => []
  | ci, c :: rest =>
      unanimousInner p ci c.date 0 c.timeSlots ++ unanimousOuter p (ci + 1) rest

/-- The unanimity policy over a whole poll, from the spec's words. -/
def bestSlotsUnanimous (p : PollData) : List BestDateTime :=
  if p.users.length = 0 then [] else unanimousOuter p 0 p.candidates

theorem summary_eq_countP (p : PollData) (ci tsi : Nat) (c : DateTimeCandidate)
    (ts : TimeSlot) (hc : p.candidates.get? ci = some c)
    (hts : c.timeSlots.get? tsi = some ts) (hu : p.users.length ≠ 0) :
    getDateTimeSummary p ci tsi =
      p.users.countP
        (fun u => answersAt u (getFlattenedIndex p.candidates ci tsi) = some .yes) := by
  rw [getDateTimeSummary, if_neg]
  intro hcon
  rcases hcon with hcon | hcon
  · exact hu hcon
  · rw [hc] at hcon
    simp only [Option.bind_eq_bind, Option.some_bind] at hcon
    rw [hts] at hcon
    exact absurd hcon (by simp)

theorem unanimity_cond_iff (p : PollData) (ci tsi : Nat) (c : DateTimeCandidate)
    (ts : TimeSlot) (hc : p.candidates.get? ci = some c)
    (hts : c.timeSlots.get? tsi = some ts) (hu : p.users.length ≠ 0) :
    (getDateTimeSummary p ci tsi = p.users.length ∧ 0 < p.users.length) ↔
      p.users.all
        (fun u => answersAt u (getFlattenedIndex p.candidates ci tsi) = some .yes) = true := by
  rw [summary_eq_countP p ci tsi c ts hc hts hu, List.all_eq_true]
  constructor
  · intro h x hx
    have := List.countP_eq_length.mp h.1 x hx
    simpa using this
  · intro h
    refine ⟨List.countP_eq_length.mpr (fun x hx => by simpa using h x hx), by omega⟩

theorem inner_policy_eq (p : PollData) (ci : Nat) (c : DateTimeCandidate)
    (hc : p.candidates.get? ci = some c) (hu : p.users.length ≠ 0) :
    ∀ (slots : List TimeSlot) (tsi0 : Nat), c.timeSlots.drop tsi0 = slots →
      bestSlotsInner p ci c.date tsi0 slots = unanimousInner p ci c.date tsi0 slots := by
  intro slots
  induction slots with
  | nil => intro tsi0 _; rfl
  | cons ts rest ih =>
      intro tsi0 hdrop
      have hts : c.timeSlots.get? tsi0 = some ts := by
        have h0 : (c.timeSlots.drop tsi0).get? 0 = some ts := by rw [hdrop]; rfl
        rwa [List.get?_drop, Nat.add_zero] at h0
      have hrest : c.timeSlots.drop (tsi0 + 1) = rest := by
        rw [← List.tail_drop, hdrop]
        rfl
      rw [bestSlotsInner, unanimousInner, ih (tsi0 + 1) hrest]
      congr 1
      by_cases hcond : p.users.all
          (fun u => answersAt u (getFlattenedIndex p.candidates ci tsi0) = some .yes) = true
      · rw [if_pos ((unanimity_cond_iff p ci tsi0 c ts hc hts hu).mpr hcond), if_pos hcond]
        have hav : getDateTimeSummary p ci tsi0 = p.users.length :=
          ((unanimity_cond_iff p ci tsi0 c ts hc hts hu).mpr hcond).1
        rw [hav]
      · rw [if_neg (fun hcc => hcond ((unanimity_cond_iff p ci tsi0 c ts hc hts hu).mp hcc)),
          if_neg hcond]

theorem outer_policy_eq (p : PollData) (hu : p.users.length ≠ 0) :
    ∀ (suffix : List DateTimeCandidate) (k : Nat), p.candidates.drop k = suffix →
      bestSlotsOuter p k suffix = unanimousOuter p k suffix := by
  intro suffix
  induction suffix with
  | nil => intro k _; rfl
  | cons c rest ih =>
      intro k hdrop
      have hc : p.candidates.get? k = some c := by
        have h0 : (p.candidates.drop k).get? 0 = some c := by rw [hdrop]; rfl
        rwa [List.get?_drop, Nat.add_zero] at h0
      have hrest : p.candidates.drop (k + 1) = rest := by
        rw [← List.tail_drop, hdrop]
        rfl
      rw [bestSlotsOuter, unanimousOuter, ih (k + 1) hrest,
        inner_policy_eq p k c hc hu c.timeSlots 0 (by rfl)]

/-- C4: `getBestDateTimes` applies one policy uniformly over all polls,
namely policy B of the claim — strict unanimity: exactly the slots at
which every respondent's answer (at the slot's flattened index, missing
entries negative) is `'○'`, in candidate order then time-slot order,
each carrying the full head-count. -/
theorem C4_best_slots_unanimity (p : PollData) :
    getBestDateTimes p = bestSlotsUnanimous p := by
  rw [getBestDateTimes, bestSlotsUnanimous]
  by_cases hu : p.users.length = 0
  · rw [if_pos (Or.inl hu), if_pos hu]
  · rw [if_neg hu]
    by_cases hcand : p.candidates.length = 0
    · rw [if_pos (Or.inr hcand)]
      have hnil : p.candidates = [] := List.length_eq_zero.mp hcand
      rw [hnil]
      rfl
    · rw [if_neg (by
        intro hcon
        rcases hcon with hcon | hcon
        · exact hu hcon
        · exact hcand hcon)]
      exact outer_policy_eq p hu p.candidates 0 (by rfl)

/-! ### C1 and C2 -/

/-- C1: decoding an encoded record recovers it exactly — the decoded
JSON value is precisely the serialization of `p`, and serialization is
injective (absent and `undefined` optional fields both being `none`),
so the result deep-equals `p`. -/
theorem C1_roundtrip (p : PollData) :
    decodePollFromUrl (encodePollToUrl p) = some (pollToJson p) ∧
    (∀ q : PollData, pollToJson q = pollToJson p → q = p) :=
  ⟨decodePollFromUrl_encodePollToUrl p, fun _ h => pollToJson_injective h⟩

/-- Witness for C1 at a concrete one-candidate, one-respondent poll. -/
theorem C1_roundtrip_witness :
    decodePollFromUrl (encodePollToUrl
        ⟨"会議", [⟨"2025-01-01", [⟨"a", "09:00", "12:00", none⟩]⟩],
          [⟨"alice", [.yes]⟩], none⟩) =
      some (pollToJson
        ⟨"会議", [⟨"2025-01-01", [⟨"a", "09:00", "12:00", none⟩]⟩],
          [⟨"alice", [.yes]⟩], none⟩) :=
  (C1_roundtrip _).1

/-- C2 counterexample: the base64 of `{"title":"a"}` decodes to a
record that has none of candidates, legacy dates, or users — yet
`decodePollFromUrl` returns it non-null (only `title` is checked),
contradicting the claimed all-three requirement. -/
theorem C2_counterexample :
    decodePollFromUrl "eyJ0aXRsZSI6ImEifQ==".data =
      some (.obj (.cons "title".data (.str ['a']) .nil)) ∧
    hasKeyObj (.cons "title".data (.str ['a']) .nil) "users".data = false ∧
    hasKeyObj (.cons "title".data (.str ['a']) .nil) "candidates".data = false ∧
    hasKeyObj (.cons "title".data (.str ['a']) .nil) "dates".data = false :=
  ⟨rfl, rfl, rfl, rfl⟩

/-- C2 (amended): `decodePollFromUrl` is a total function (never
throws); it returns null immediately on empty or whitespace-only
input; and it returns a record exactly when the (fallback-aware)
decoding succeeds and parses to a JSON object with an own `title`
property — presence of candidates, legacy dates or users is **not**
required. -/
theorem C2_decode_shape (s : List Char) :
    (trimIsEmpty s = true → decodePollFromUrl s = none) ∧
    (∀ v, decodePollFromUrl s = some v →
       hasOwnTitle v = true ∧
       ∃ json, safeBase64Decode s = some json ∧ jsonParse json = some v) ∧
    (∀ json v, trimIsEmpty s = false → safeBase64Decode s = some json →
       jsonParse json = some v → hasOwnTitle v = true → decodePollFromUrl s = some v) := by
  refine ⟨?_, ?_, ?_⟩
  · intro h
    rw [decodePollFromUrl, if_pos h]
  · intro v hv
    rw [decodePollFromUrl] at hv
    by_cases ht : trimIsEmpty s
    · rw [if_pos ht] at hv
      exact absurd hv (by simp)
    · rw [if_neg ht] at hv
      cases hsb : safeBase64Decode s with
      | none =>
          rw [hsb] at hv
          exact absurd hv (by simp)
      | some json =>
          rw [hsb] at hv
          simp only [] at hv
          cases hp : jsonParse json with
          | none =>
              rw [hp] at hv
              exact absurd hv (by simp)
          | some parsed =>
              rw [hp] at hv
              simp only [] at hv
              by_cases hti : hasOwnTitle parsed
              · rw [if_pos hti] at hv
                obtain rfl : parsed = v := by simpa using hv
                exact ⟨hti, json, rfl, hp⟩
              · rw [if_neg hti] at hv
                exact absurd hv (by simp)
  · intro json v ht hsb hp hti
    rw [decodePollFromUrl, if_neg (by simp [ht]), hsb]
    simp only []
    rw [hp]
    simp only []
    rw [if_pos hti]

/-- Witness for C2 (amended): whitespace-only input yields null. -/
theorem C2_decode_shape_witness : decodePollFromUrl " ".data = none :=
  (C2_decode_shape " ".data).1 (by rfl)

end TimeHub
